import Mathlib

/-!
# Verification of `archive_clean_and_rename.py` (digital-archiving-tools)

A shallow embedding of the archival clean-and-rename engine:
name sanitization, natural-sort keys, the collision resolver
(`unique_path`), the depth guard, the directory-rename phase with
rollback, and the two-phase (stage/commit) file renamer, together with
theorems settling the specification claims.

Strings are modelled as `List Char` (Lean `Char` is a Unicode scalar
value, matching Python `str` code points); paths are lists of
components relative to the processed root.  Fallible filesystem
primitives consult an explicit failure oracle; the no-failure oracle
models an error-free run.
-/

namespace ACR

/-! ## Characters and character classes -/

/-- Code point U+0308 COMBINING DIAERESIS (produced by NFKD from
precomposed umlauts). -/
def combDia : Char := Char.ofNat 0x308

/-- Code point U+00E4, ä, precomposed as in the source literals. -/
def chAuml : Char := Char.ofNat 0xE4

/-- Code point U+00F6, ö. -/
def chOuml : Char := Char.ofNat 0xF6

/-- Code point U+00FC, ü. -/
def chUuml : Char := Char.ofNat 0xFC

/-- Code point U+00C4, Ä. -/
def chAumlU : Char := Char.ofNat 0xC4

/-- Code point U+00D6, Ö. -/
def chOumlU : Char := Char.ofNat 0xD6

/-- Code point U+00DC, Ü. -/
def chUumlU : Char := Char.ofNat 0xDC

/-- Code point U+00DF, ß; it has no NFKD decomposition. -/
def chSharpS : Char := Char.ofNat 0xDF

/-- Code point U+1E9E, ẞ (uppercase sharp s); `str.lower` maps it to ß. -/
def chSharpSU : Char := Char.ofNat 0x1E9E

/-- Regex class `[a-z]` (code points 97..122). -/
def isLowerAlpha (c : Char) : Bool := 97 ≤ c.toNat && c.toNat ≤ 122

/-- Regex class `[0-9]` (code points 48..57). -/
def isDigitCh (c : Char) : Bool := 48 ≤ c.toNat && c.toNat ≤ 57

/-- The allow-list of `_ALLOWED_NAME_RE`: `[a-z0-9._-]`
(dot 46, underscore 95, hyphen 45). -/
def allowedChar (c : Char) : Bool :=
  isLowerAlpha c || isDigitCh c || c.toNat == 46 || c.toNat == 95 || c.toNat == 45

/-- Python regex `\s` on `str`: ASCII whitespace, the controls Python
treats as space, and the Unicode space separators. -/
def pySpace (c : Char) : Bool :=
  (9 ≤ c.toNat && c.toNat ≤ 13) || c.toNat == 32 ||
  (28 ≤ c.toNat && c.toNat ≤ 31) || c.toNat == 0x85 || c.toNat == 0xA0 ||
  c.toNat == 0x1680 || (0x2000 ≤ c.toNat && c.toNat ≤ 0x200A) ||
  c.toNat == 0x2028 || c.toNat == 0x2029 || c.toNat == 0x202F ||
  c.toNat == 0x205F || c.toNat == 0x3000

/-! ## The `sanitize_name` pipeline -/

/-- Per-character `unicodedata.normalize('NFKD', ·)` on the character
set this program manipulates: identity on ASCII and on ß/ẞ (which have
no decomposition), and the canonical decomposition of the six
precomposed German umlaut letters into base letter + U+0308. -/
def nfkdChar (c : Char) : List Char :=
  if c = chAuml then ['a', combDia] else
  if c = chOuml then ['o', combDia] else
  if c = chUuml then ['u', combDia] else
  if c = chAumlU then ['A', combDia] else
  if c = chOumlU then ['O', combDia] else
  if c = chUumlU then ['U', combDia] else [c]

def nfkd (l : List Char) : List Char := l.flatMap nfkdChar

/-- Per-character `str.lower` on the character set in play: ASCII
letters and ẞ→ß; identity elsewhere (combining marks are unaffected,
and no precomposed umlaut survives `nfkd`). -/
def lowerChar (c : Char) : Char :=
  if 65 ≤ c.toNat && c.toNat ≤ 90 then Char.ofNat (c.toNat + 32) else
  if c = chSharpSU then chSharpS else c

/-- Model of `str.replace` with a single-character pattern: expand each
occurrence of `c` to `r`. -/
def replCh (c : Char) (r : List Char) (l : List Char) : List Char :=
  l.flatMap fun a => if a = c then r else [a]

/-- Model of `re.sub(r'\s+', '_', ·)`: each maximal whitespace run
becomes one underscore.  The flag records whether the previous
character was whitespace. -/
def wsCollapseGo : Bool → List Char → List Char
  | _, [] => []
  | prev, a :: l =>
    if pySpace a then
      if prev then wsCollapseGo true l else '_' :: wsCollapseGo true l
    else a :: wsCollapseGo false l

def wsCollapse (l : List Char) : List Char := wsCollapseGo false l

/-- Model of `re.sub` collapsing runs: cap each maximal run of `c` at
length `k`; the counter is the number of `c`s of the current run
already seen. -/
def capRunGo (c : Char) (k : Nat) : Nat → List Char → List Char
  | _, [] => []
  | n, a :: l =>
    if a = c then
      if n < k then a :: capRunGo c k (n + 1) l else capRunGo c k (n + 1) l
    else a :: capRunGo c k 0 l

def capRun (c : Char) (k : Nat) (l : List Char) : List Char := capRunGo c k 0 l

/-- Cappedness: `cappedGo c k n l` holds when no run of `c` in `l`
exceeds length `k`, given that `n` copies of `c` immediately precede
`l`.  This is the shape invariant the run-collapsing passes establish. -/
def cappedGo (c : Char) (k : Nat) : Nat → List Char → Bool
  | _, [] => true
  | n, a :: l => if a = c then (n + 1 ≤ k) && cappedGo c k (n + 1) l else cappedGo c k 0 l

/-- Membership in `'._-'`, the argument of the final `strip`. -/
def stripSet (c : Char) : Bool := c.toNat == 46 || c.toNat == 95 || c.toNat == 45

/-- Model of `str.strip('._-')`. -/
def stripEnds (l : List Char) : List Char :=
  ((l.dropWhile stripSet).reverse.dropWhile stripSet).reverse

/-- Model of `str(int(name))` for a nonempty all-digit `name`: drop
leading zeros, yielding `"0"` when everything was a zero. -/
def stripZeros (l : List Char) : List Char :=
  match l.dropWhile (· == '0') with
  | [] => ['0']
  | r => r

/-- Model of `if name.isdigit(): name = str(int(name))`. -/
def digitNormalize (l : List Char) : List Char :=
  if l ≠ [] ∧ l.all isDigitCh then stripZeros l else l

/-- Body of `sanitize_name` on code-point lists, stage for stage in
source order. -/
def sanitizeChars (l : List Char) : List Char :=
  let s1 := nfkd l
  let s2 := s1.map lowerChar
  let s3 := replCh chSharpS ['s', 's']
    (replCh chUuml ['u', 'e'] (replCh chOuml ['o', 'e'] (replCh chAuml ['a', 'e'] s2)))
  let s4 := replCh '+' ['.', '.'] (replCh '/' ['-', '-'] s3)
  let s5 := wsCollapse s4
  let s6 := replCh ',' [] s5
  let s7 := s6.filter allowedChar
  let s8 := capRun '-' 2 (capRun '.' 2 (capRun '_' 1 s7))
  let s9 := stripEnds s8
  digitNormalize s9

/-- Function `sanitize_name`, with the final `return name if name else 'x'`. -/
def sanitize_name (s : String) : String :=
  let r := sanitizeChars s.data
  if r = [] then "x" else String.mk r

/-- Input of the spec example `sanitize("Müller, Straße")`, with
precomposed ü and ß exactly as a caller would pass them. -/
def muellerInput : String :=
  String.mk ['M', chUuml, 'l', 'l', 'e', 'r', ',', ' ', 'S', 't', 'r', 'a', chSharpS, 'e']

/-- Canonical shape of sanitizer outputs: only allowed characters, runs
of `_`, `.` and `-` capped at the lengths the collapse passes enforce,
no strippable ends, and digit normalization already applied. -/
structure Canon (l : List Char) : Prop where
  allowed : ∀ a ∈ l, allowedChar a = true
  capU : cappedGo '_' 1 0 l = true
  capD : cappedGo '.' 2 0 l = true
  capH : cappedGo '-' 2 0 l = true
  stripped : stripEnds l = l
  dign : digitNormalize l = l

/-- Join-component shape: nonempty, allowed, capped, and with no
strippable character at either end.  Unlike `Canon`, digit
normalization is not required, so a zero-padded sequence block
qualifies. -/
structure PreCanon (l : List Char) : Prop where
  ne : l ≠ []
  allowed : ∀ a ∈ l, allowedChar a = true
  capU : cappedGo '_' 1 0 l = true
  capD : cappedGo '.' 2 0 l = true
  capH : cappedGo '-' 2 0 l = true
  headOk : ∀ a t, l = a :: t → stripSet a = false
  lastOk : ∀ t b, l = t ++ [b] → stripSet b = false

/-! ## Natural sort keys (`natural_key`) -/

/-- Part of a natural-sort key: `re.split(r'(\d+)', s)` alternates text
groups (even positions) and digit groups (odd positions), so comparing
two keys positionwise never compares a number with a text. -/
inductive NKPart where
  | num (n : Nat)
  | txt (s : List Char)
deriving DecidableEq, Repr

/-- Decimal value of an ASCII digit run (`int(p)`). -/
def parseDigits (l : List Char) : Nat := l.foldl (fun a c => 10 * a + (c.toNat - 48)) 0

mutual
/-- Text state of the `re.split(r'(\d+)', s)` scanner; `acc` holds the
current group reversed.  Text groups are lowercased (`p.lower()`). -/
def nkTxt (acc : List Char) : List Char → List NKPart
  | [] => [.txt (acc.reverse.map lowerChar)]
  | c :: r =>
    if isDigitCh c then NKPart.txt (acc.reverse.map lowerChar) :: nkNum [c] r
    else nkTxt (c :: acc) r
/-- Digit state of the scanner; a trailing empty text group closes the
key exactly like `re.split` does. -/
def nkNum (acc : List Char) : List Char → List NKPart
  | [] => [.num (parseDigits acc.reverse), .txt []]
  | c :: r =>
    if isDigitCh c then nkNum (c :: acc) r
    else NKPart.num (parseDigits acc.reverse) :: nkTxt [c] r
end

/-- Model of `natural_key`. -/
def natural_key (s : String) : List NKPart := nkTxt [] s.data

/-- Python string comparison: lexicographic by code point. -/
def cmpChars : List Char → List Char → Ordering
  | [], [] => .eq
  | [], _ :: _ => .lt
  | _ :: _, [] => .gt
  | a :: s, b :: t =>
    if a.toNat < b.toNat then .lt else if b.toNat < a.toNat then .gt else cmpChars s t

/-- Comparison of key parts.  Keys are compared positionwise and parts
at equal positions always have the same constructor (see `NKPart`), so
the mixed cases are unreachable for `natural_key` outputs. -/
def cmpPart : NKPart → NKPart → Ordering
  | .num a, .num b => if a < b then .lt else if b < a then .gt else .eq
  | .txt a, .txt b => cmpChars a b
  | .num _, .txt _ => .lt
  | .txt _, .num _ => .gt

/-- Python list comparison, lexicographic with shorter-is-less ties. -/
def cmpKey : List NKPart → List NKPart → Ordering
  | [], [] => .eq
  | [], _ :: _ => .lt
  | _ :: _, [] => .gt
  | a :: s, b :: t =>
    match cmpPart a b with
    | .eq => cmpKey s t
    | o => o

/-- Sorting relation of `sorted(files, key=natural_key)`. -/
def natLE (a b : String) : Bool :=
  !(cmpKey (natural_key a) (natural_key b) == Ordering.gt)

/-- Stable insertion: `a` goes after every already-placed element `b`
with `le b a`.  Python's `sorted` is stable, and any stable sort by the
same relation is behaviorally identical to it. -/
def stableInsert (le : α → α → Bool) (a : α) : List α → List α
  | [] => [a]
  | b :: l => if le b a then b :: stableInsert le a l else a :: b :: l

/-- Stable sort modelling Python `sorted`. -/
def stableSort (le : α → α → Bool) (l : List α) : List α :=
  l.foldl (fun acc a => stableInsert le a acc) []

/-- Model of `sorted(files, key=natural_key)`. -/
def natSort (files : List String) : List String := stableSort natLE files

/-! ## pathlib name splitting and `unique_path` -/

/-- Index of the dot that yields a pathlib extension: the last `.` of
the name when it is neither the first nor the last character. -/
def sfxIdx (name : List Char) : Option Nat :=
  match ((List.range name.length).filter fun i => name.getD i ' ' == '.').getLast? with
  | none => none
  | some i => if 0 < i ∧ i < name.length - 1 then some i else none

/-- Model of `Path.stem` on a name. -/
def pathStem (name : List Char) : List Char :=
  match sfxIdx name with
  | none => name
  | some i => name.take i

/-- Model of `Path.suffix` on a name. -/
def pathSuffix (name : List Char) : List Char :=
  match sfxIdx name with
  | none => []
  | some i => name.drop i

/-- Decimal digits of a positive number, most significant first; the
fuel argument only bounds the recursion (any fuel at least `n` is
enough, since `n / 10 < n`). -/
def natDigitsAux : Nat → Nat → List Char
  | 0, _ => []
  | fuel + 1, n =>
    if n = 0 then [] else natDigitsAux fuel (n / 10) ++ [Char.ofNat (48 + n % 10)]

/-- Decimal digits of `n`, most significant first (`str(n)`). -/
def natToChars (n : Nat) : List Char :=
  if n = 0 then ['0'] else natDigitsAux (n + 1) n

/-- Candidate name `f"{base}_dup{i}{ext}"`. -/
def dupName (name : List Char) (i : Nat) : List Char :=
  pathStem name ++ ('_' :: 'd' :: 'u' :: 'p' :: natToChars i) ++ pathSuffix name

/-- Candidate path `parent / f"{base}_dup{i}{ext}"`. -/
def dupCandidate (target : List String) (i : Nat) : List String :=
  target.dropLast ++ [String.mk (dupName (target.getLastD "").data i)]

/-- Attempt loop of `unique_path`; `ex` abstracts `Path.exists()`,
`i` is the next suffix index, the second argument the remaining
attempts.  Returns `none` for the exhausted `RuntimeError` branch. -/
def uniquePathGo (ex : List String → Bool) (target : List String) :
    Nat → Nat → Option (List String)
  | _, 0 => none
  | i, fuel + 1 =>
    if ex (dupCandidate target i) then uniquePathGo ex target (i + 1) fuel
    else some (dupCandidate target i)

/-- Model of `unique_path(target, max_attempts)`. -/
def unique_path (ex : List String → Bool) (target : List String)
    (maxAttempts : Nat := 99) : Option (List String) :=
  if ex target then uniquePathGo ex target 1 maxAttempts else some target

/-! ## Filesystem model

Paths are component lists relative to the processed root (the root
itself is `[]` and is not an entry).  An `Entry` additionally carries an
abstract content identity so that overwriting and copying are
observable.  The list order models the enumeration order of the
filesystem (`rglob`/`os.walk` sibling order is unspecified in the
source). -/

structure Entry where
  path : List String
  isDir : Bool
  content : Nat
deriving DecidableEq, Repr

abbrev FS := List Entry

/-- Model of `Path.exists()`. -/
def fsHas (fs : FS) (p : List String) : Bool := fs.any fun e => e.path == p

/-- Content identity stored at a path (0 when absent). -/
def fsContent (fs : FS) (p : List String) : Nat :=
  (((fs.find? fun e => e.path == p).map Entry.content).getD 0)

/-- Model of `Path.rename`: every entry at or under `old` moves to the
corresponding path under `new`. -/
def renameSub (fs : FS) (old new : List String) : FS :=
  fs.map fun e =>
    if old.isPrefixOf e.path then { e with path := new ++ e.path.drop old.length } else e

/-- Model of `Path.unlink` (also used for `rename`-overwrite of a
destination). -/
def unlinkAt (fs : FS) (p : List String) : FS := fs.filter fun e => !(e.path == p)

/-- Failure oracle for the fallible filesystem primitives; a `true`
answer makes the corresponding call raise. -/
structure Oracle where
  renameFail : List String → List String → Bool
  copyFail : List String → List String → Bool
  unlinkFail : List String → Bool
  replaceFail : List String → List String → Bool
  mkdirFail : List String → Bool

/-- Oracle of an error-free run. -/
def noFail : Oracle :=
  ⟨fun _ _ => false, fun _ _ => false, fun _ => false, fun _ _ => false, fun _ => false⟩

/-- Transaction-log actions, one per `write_log` call site of the two
phases (dry-run entries carry their distinguishing `would` marker). -/
inductive Action where
  | renamedDir (old new : List String)
  | wouldRenameDir (old new : List String)
  | rollbackDir (new old : List String)
  | errorRollbackDir (new old : List String)
  | errorRenamingDir (old new : List String)
  | errorUniqueDir (target : List String)
  | wouldCreateTmp (p : List String)
  | errorCreateTmp (p : List String)
  | copied (old tmp : List String)
  | wouldCopy (old tmp : List String)
  | errorCopy (old : List String)
  | errorUniqueTmp (t : List String)
  | rollbackDelete (tmp : List String)
  | errorRollbackDelete (tmp : List String)
  | wouldMove (tmp final : List String)
  | deletedOriginal (p : List String)
  | errorDeleteOriginal (p : List String)
  | errorDeleteExisting (p : List String)
  | errorUniqueFinal (p : List String)
  | renamedFile (old final : List String)
  | errorMoveFinal (tmp final : List String)
deriving DecidableEq, Repr

/-! ## Depth guard -/

def MAX_RELATIVE_DEPTH : Nat := 4

/-- Maximum over files of `len(p.parent.relative_to(root).parts)`. -/
def maxFileDepth (fs : FS) : Nat :=
  (fs.filter fun e => !e.isDir).foldl (fun m e => max m (e.path.length - 1)) 0

/-- Model of `check_max_relative_depth`. -/
def check_max_relative_depth (fs : FS) : Bool :=
  decide (maxFileDepth fs ≤ MAX_RELATIVE_DEPTH)

/-! ## Directory phase -/

/-- Model of `gather_dirs_by_depth`: all directories, deepest first
(`sorted(..., key=len(relative parts), reverse=True)`).  `rglob` never
yields the root itself, so the `d == root` guard of the loop is
vacuous. -/
def gather_dirs_by_depth (fs : FS) : List (List String) :=
  stableSort (fun a b => decide (b.length ≤ a.length)) ((fs.filter Entry.isDir).map Entry.path)

/-- One rollback step: `if new.exists(): new.rename(old)`, the failure
logged without blocking the remaining steps. -/
def rbStep (o : Oracle) (st : FS × List Action) (r : List String × List String) :
    FS × List Action :=
  if fsHas st.1 r.2 then
    if o.renameFail r.2 r.1 then (st.1, st.2 ++ [Action.errorRollbackDir r.2 r.1])
    else (renameSub st.1 r.2 r.1, st.2 ++ [Action.rollbackDir r.2 r.1])
  else st

/-- Reverse replay of the rename records: the (twice inlined) rollback
loop of `rename_directories_safe`.  Each step is attempted
independently; a step whose `new` no longer exists is skipped, a step
whose rename raises is logged and does not block the rest. -/
def rollbackRenames (o : Oracle) (fs : FS) (recs : List (List String × List String)) :
    FS × List Action :=
  recs.reverse.foldl (rbStep o) (fs, [])

/-- Extraction of the performed directory renames from a log. -/
def dirRenames (log : List Action) : List (List String × List String) :=
  log.filterMap fun a =>
    match a with
    | .renamedDir old new => some (old, new)
    | _ => none

/-- Prefix closure: every proper ancestor of an entry's path is a
directory entry of the tree. -/
@[reducible] def Closed (fs : FS) : Prop :=
  ∀ e ∈ fs, ∀ k ∈ List.range e.path.length, 0 < k →
    ∃ e2 ∈ fs, e2.path = e.path.take k ∧ e2.isDir = true

/-- Well-formed tree: no entry at the root path itself, no duplicate
paths, and prefix-closed. -/
structure WFS (fs : FS) : Prop where
  ne : ∀ e ∈ fs, e.path ≠ []
  nodup : (fs.map Entry.path).Nodup
  closed : Closed fs

/-- Loop body of `rename_directories_safe` over the pre-gathered
directory list.  In this exact-path model `new_path.samefile(d)` is
always false (the names differ), so the collision test reduces to
`new_path.exists() and not dry`.  An `Except.error` models the
re-raised exception; its payload also carries the records made before
the failure, which the raised exception loses in the source but the
rollback statement of the spec is about. -/
def renameDirsGo (o : Oracle) (dry : Bool) :
    List (List String) → FS → List (List String × List String) → List Action →
      Except (FS × List Action × List (List String × List String))
        (FS × List (List String × List String) × List Action)
  | [], fs, recs, log => .ok (fs, recs, log)
  | d :: rest, fs, recs, log =>
    let dName := d.getLastD ""
    let newName := sanitize_name dName
    if newName = dName then renameDirsGo o dry rest fs recs log
    else
      let np0 := d.dropLast ++ [newName]
      if fsHas fs np0 && !dry then
        match unique_path (fsHas fs) np0 with
        | none =>
          let rb := rollbackRenames o fs recs
          .error (rb.1, log ++ [Action.errorUniqueDir np0] ++ rb.2, recs)
        | some np =>
          if o.renameFail d np then
            let rb := rollbackRenames o fs recs
            .error (rb.1, log ++ [Action.errorRenamingDir d np] ++ rb.2, recs)
          else
            renameDirsGo o dry rest (renameSub fs d np) (recs ++ [(d, np)])
              (log ++ [Action.renamedDir d np])
      else
        if dry then renameDirsGo o dry rest fs recs (log ++ [Action.wouldRenameDir d np0])
        else if o.renameFail d np0 then
          let rb := rollbackRenames o fs recs
          .error (rb.1, log ++ [Action.errorRenamingDir d np0] ++ rb.2, recs)
        else
          renameDirsGo o dry rest (renameSub fs d np0) (recs ++ [(d, np0)])
            (log ++ [Action.renamedDir d np0])

/-- Model of `rename_directories_safe`. -/
def rename_directories_safe (o : Oracle) (fs : FS) (dry : Bool) :
    Except (FS × List Action × List (List String × List String))
      (FS × List (List String × List String) × List Action) :=
  renameDirsGo o dry (gather_dirs_by_depth fs) fs [] []

/-! ## File phase -/

/-- The extension allow-list. -/
def ALLOWED_EXTS : List (List Char) :=
  [['.', 't', 'i', 'f'], ['.', 't', 'i', 'f', 'f'], ['.', 'j', 'p', 'g'],
   ['.', 'j', 'p', 'e', 'g'], ['.', 'p', 'n', 'g'], ['.', 'p', 'd', 'f']]

/-- Lowercased pathlib suffix of a file name (`Path(f).suffix.lower()`). -/
def extOf (fname : String) : List Char := (pathSuffix fname.data).map lowerChar

def allowedFile (fname : String) : Bool := ALLOWED_EXTS.contains (extOf fname)

/-- Names of the root directory itself and of its ancestors outside the
tree, which `dirp.name` / `dirp.parent.name` / `dirp.parent.parent.name`
reach for directories of depth ≤ 1 (the source compares those parents
against `root`, not against a sentinel). -/
structure RootCtx where
  name : String
  parentName : String
  grandName : String

/-- Naming context of `process_files_in_leaf_dirs` for one directory. -/
structure NamingCtx where
  rootname : String
  father : String
  grandfather : String
deriving DecidableEq, Repr

/-- Context computation: `rootname = sanitize(dirp.name)`;
`father = sanitize(dirp.parent.name)` unless `dirp.parent == root`
(then `'x'`); `grandfather = sanitize(dirp.parent.parent.name)` unless
`dirp.parent.parent == root` (then `'x'`).  For shallow directories the
parent chain leaves the tree, reaching the `RootCtx` names. -/
def ctxOfRev (rc : RootCtx) : List String → NamingCtx
  | [] => ⟨sanitize_name rc.name, sanitize_name rc.parentName, sanitize_name rc.grandName⟩
  | [a] => ⟨sanitize_name a, "x", sanitize_name rc.parentName⟩
  | [b, a] => ⟨sanitize_name b, sanitize_name a, "x"⟩
  | b :: a :: g :: _ => ⟨sanitize_name b, sanitize_name a, sanitize_name g⟩

def ctxOf (rc : RootCtx) (dirp : List String) : NamingCtx := ctxOfRev rc dirp.reverse

/-- Formatting `f"{seq:04d}"`. -/
def pad4 (n : Nat) : List Char :=
  List.replicate (4 - (natToChars n).length) '0' ++ natToChars n

/-- New base name `f"{grandfather}_{father}_nr_{rootname}_{seq:04d}"`. -/
def newBase (cx : NamingCtx) (seq : Nat) : List Char :=
  cx.grandfather.data ++ '_' :: cx.father.data ++ '_' :: 'n' :: 'r' :: '_' ::
    cx.rootname.data ++ '_' :: pad4 seq

/-- New file name `sanitize_name(new_base) + ext`. -/
def newFileName (cx : NamingCtx) (seq : Nat) (ext : List Char) : String :=
  sanitize_name (String.mk (newBase cx seq)) ++ String.mk ext

/-- File names directly inside `dirp`, in enumeration order
(`os.walk` filenames). -/
def filesIn (fs : FS) (dirp : List String) : List String :=
  ((fs.filter fun e => !e.isDir && e.path.dropLast == dirp).map fun e => e.path.getLastD "")

/-- Staged pairs of one directory, for specification purposes: the
`(original, staged)` mapping the stage loop produces for the given file
list from the given starting sequence number when nothing fails. -/
def stagedPairs (cx : NamingCtx) (dirp tmpSub : List String) :
    List String → Nat → List (List String × List String)
  | [], _ => []
  | f :: r, seq =>
    (dirp ++ [f], tmpSub ++ [newFileName cx seq (extOf f)]) ::
      stagedPairs cx dirp tmpSub r (seq + 1)

/-- Directory visit order of `os.walk(root)`: the root, then every
directory of the tree (sibling order is filesystem-defined in the
source; the model uses entry order).  The walk skips the staging area,
which the model keeps in a separate store. -/
def walkDirs (fs : FS) : List (List String) :=
  [] :: (fs.filter Entry.isDir).map Entry.path

/-- Stage rollback: delete every staged copy recorded in the mappings
(`ROLLBACK_DELETE`), each step attempted independently. -/
def rollbackStage (o : Oracle) (tmp : List Entry) (maps : List (List String × List String)) :
    List Entry × List Action :=
  maps.foldl
    (fun st m =>
      if fsHas st.1 m.2 then
        if o.unlinkFail m.2 then (st.1, st.2 ++ [Action.errorRollbackDelete m.2])
        else (unlinkAt st.1 m.2, st.2 ++ [Action.rollbackDelete m.2])
      else st)
    (tmp, [])

/-- Step 1 of `process_files_in_leaf_dirs` for one directory: copy the
naturally sorted files into the staging subtree under their new
sequence names.  On a failure the staged copies are deleted and the
loop breaks — but, exactly as in the source, the mappings list is kept,
and step 2 still iterates over it. -/
def stageLoop (o : Oracle) (dry : Bool) (fs : FS) (cx : NamingCtx)
    (dirp tmpSub : List String) :
    List String → Nat → List Entry → List (List String × List String) → List Action →
      List Entry × List (List String × List String) × List Action
  | [], _, tmp, maps, log => (tmp, maps, log)
  | fname :: rest, seq, tmp, maps, log =>
    let oldPath := dirp ++ [fname]
    let tmpTarget := tmpSub ++ [newFileName cx seq (extOf fname)]
    if dry then
      stageLoop o dry fs cx dirp tmpSub rest (seq + 1) tmp (maps ++ [(oldPath, tmpTarget)])
        (log ++ [Action.wouldCopy oldPath tmpTarget])
    else
      match unique_path (fsHas tmp) tmpTarget with
      | none =>
        let rb := rollbackStage o tmp maps
        (rb.1, maps, log ++ [Action.errorUniqueTmp tmpTarget] ++ rb.2)
      | some tgt =>
        if o.copyFail oldPath tgt then
          let rb := rollbackStage o tmp maps
          (rb.1, maps, log ++ [Action.errorCopy oldPath] ++ rb.2)
        else
          stageLoop o dry fs cx dirp tmpSub rest (seq + 1)
            (tmp ++ [⟨tgt, false, fsContent fs oldPath⟩]) (maps ++ [(oldPath, tgt)])
            (log ++ [Action.copied oldPath tgt])

/-- Step 2 of `process_files_in_leaf_dirs` for one directory: for each
mapping, delete the original if it still exists, clear or divert an
occupied final target, and move the staged file into place. -/
def commitLoop (o : Oracle) (dry : Bool) :
    List (List String × List String) → FS → List Entry → List Action →
      FS × List Entry × List Action
  | [], fs, tmp, log => (fs, tmp, log)
  | (oldPath, tmpFile) :: rest, fs, tmp, log =>
    let finalT := oldPath.dropLast ++ [tmpFile.getLastD ""]
    if dry then
      commitLoop o dry rest fs tmp (log ++ [Action.wouldMove tmpFile finalT])
    else
      if fsHas fs oldPath && o.unlinkFail oldPath then
        commitLoop o dry rest fs tmp (log ++ [Action.errorDeleteOriginal oldPath])
      else
        let fs1 := if fsHas fs oldPath then unlinkAt fs oldPath else fs
        let log1 := log ++ (if fsHas fs oldPath then [Action.deletedOriginal oldPath] else [])
        if fsHas fs1 finalT && o.unlinkFail finalT then
          match unique_path (fsHas fs1) finalT with
          | none =>
            commitLoop o dry rest fs1 tmp
              (log1 ++ [Action.errorDeleteExisting finalT, Action.errorUniqueFinal finalT])
          | some alt =>
            if !(fsHas tmp tmpFile) || o.replaceFail tmpFile alt then
              commitLoop o dry rest fs1 tmp
                (log1 ++ [Action.errorDeleteExisting finalT, Action.errorMoveFinal tmpFile alt])
            else
              commitLoop o dry rest
                (unlinkAt fs1 alt ++ [⟨alt, false, fsContent tmp tmpFile⟩])
                (unlinkAt tmp tmpFile)
                (log1 ++ [Action.errorDeleteExisting finalT, Action.renamedFile oldPath alt])
        else
          let fs2 := if fsHas fs1 finalT then unlinkAt fs1 finalT else fs1
          if !(fsHas tmp tmpFile) || o.replaceFail tmpFile finalT then
            commitLoop o dry rest fs2 tmp (log1 ++ [Action.errorMoveFinal tmpFile finalT])
          else
            commitLoop o dry rest
              (unlinkAt fs2 finalT ++ [⟨finalT, false, fsContent tmp tmpFile⟩])
              (unlinkAt tmp tmpFile)
              (log1 ++ [Action.renamedFile oldPath finalT])

/-- Processing of one directory of the walk (skipped when it directly
contains no allow-listed file).  The final cleanup removes the staging
subdirectory only when empty, which never touches a staged file, so the
file store is unchanged by it. -/
def processDir (o : Oracle) (dry : Bool) (rc : RootCtx) (fs : FS) (tmp : List Entry)
    (dirp : List String) (log : List Action) : FS × List Entry × List Action :=
  let files := (filesIn fs dirp).filter allowedFile
  if files.isEmpty then (fs, tmp, log)
  else if !dry && o.mkdirFail ("_files_" :: dirp) then
    (fs, tmp, log ++ [Action.errorCreateTmp ("_files_" :: dirp)])
  else
    let cx := ctxOf rc dirp
    let tmpSub := "_files_" :: dirp
    let log0 := log ++ (if dry then [Action.wouldCreateTmp tmpSub] else [])
    let st := stageLoop o dry fs cx dirp tmpSub (natSort files) 1 tmp [] log0
    commitLoop o dry st.2.1 fs st.1 st.2.2

/-- Walk of the file phase over the visit order. -/
def filePhaseGo (o : Oracle) (dry : Bool) (rc : RootCtx) :
    List (List String) → FS → List Entry → List Action → FS × List Entry × List Action
  | [], fs, tmp, log => (fs, tmp, log)
  | d :: rest, fs, tmp, log =>
    let st := processDir o dry rc fs tmp d log
    filePhaseGo o dry rc rest st.1 st.2.1 st.2.2

/-- Model of `process_files_in_leaf_dirs` (the staging store starts
empty: the temporary directory is freshly created by `main`). -/
def process_files_in_leaf_dirs (o : Oracle) (dry : Bool) (rc : RootCtx) (fs : FS) :
    FS × List Entry × List Action :=
  filePhaseGo o dry rc (walkDirs fs) fs [] []

/-- Model of `main` after argument handling: depth check first (abort
with no mutation on failure), then the directory phase — whose
re-raised failure prevents the file phase from ever running — then the
file phase. -/
def runPipeline (o : Oracle) (rc : RootCtx) (fs : FS) (dry : Bool) : FS × List Action :=
  if !(check_max_relative_depth fs) then (fs, [])
  else
    match rename_directories_safe o fs dry with
    | .error (fs', log, _) => (fs', log)
    | .ok (fs', _, log) =>
      let fp := process_files_in_leaf_dirs o dry rc fs'
      (fp.1, log ++ fp.2.2)

/-! ## Sanitizer theory

Outputs of `capRun` are capped, capped lists are fixed points of
`capRun`, and cappedness is preserved by the later pipeline stages;
together these give idempotence of the sanitizer. -/

lemma capRunGo_eq_self {c : Char} {k : Nat} :
    ∀ {l : List Char} {n : Nat}, cappedGo c k n l = true → capRunGo c k n l = l := by
  intro l
  induction l with
  | nil => intro n _; rfl
  | cons a l ih =>
    intro n h
    by_cases hac : a = c
    · rw [cappedGo, if_pos hac, Bool.and_eq_true] at h
      have hle : n + 1 ≤ k := by simpa using h.1
      rw [capRunGo, if_pos hac, if_pos (show n < k by omega), ih h.2]
    · rw [cappedGo, if_neg hac] at h
      rw [capRunGo, if_neg hac, ih h]

lemma capped_capRunGo {c : Char} {k : Nat} :
    ∀ {l : List Char} {n m : Nat}, (n < k → m ≤ n) →
      cappedGo c k m (capRunGo c k n l) = true := by
  intro l
  induction l with
  | nil => intro n m _; rfl
  | cons a l ih =>
    intro n m hnm
    by_cases hac : a = c
    · by_cases hnk : n < k
      · rw [capRunGo, if_pos hac, if_pos hnk, cappedGo, if_pos hac]
        have hm : m + 1 ≤ k := by omega
        rw [ih (fun h => by omega)]
        simp [hm]
      · rw [capRunGo, if_pos hac, if_neg hnk]
        exact ih (fun h => by omega)
    · rw [capRunGo, if_neg hac, cappedGo, if_neg hac]
      exact ih (fun h => by omega)

lemma capped_capRunGo_other {c c' : Char} {k k' : Nat} (hcc : c ≠ c') (hk : 1 ≤ k) :
    ∀ {l : List Char} {n m : Nat}, (1 ≤ n → m = 0) →
      cappedGo c' k' m l = true → cappedGo c' k' m (capRunGo c k n l) = true := by
  intro l
  induction l with
  | nil => intro n m _ _; rfl
  | cons a l ih =>
    intro n m hnm h
    by_cases hac : a = c
    · have hac' : a ≠ c' := hac ▸ hcc
      rw [cappedGo, if_neg hac'] at h
      by_cases hnk : n < k
      · rw [capRunGo, if_pos hac, if_pos hnk, cappedGo, if_neg hac']
        exact ih (fun _ => rfl) h
      · rw [capRunGo, if_pos hac, if_neg hnk]
        have hm : m = 0 := hnm (by omega)
        subst hm
        exact ih (fun _ => rfl) h
    · rw [capRunGo, if_neg hac]
      by_cases hac' : a = c'
      · rw [cappedGo, if_pos hac'] at h ⊢
        rcases Bool.and_eq_true .. |>.mp h with ⟨h1, h2⟩
        rw [h1, Bool.true_and]
        exact ih (fun h => by omega) h2
      · rw [cappedGo, if_neg hac'] at h ⊢
        exact ih (fun h => by omega) h

lemma capped_false_infix {c : Char} {k : Nat} :
    ∀ {l : List Char} {m : Nat}, cappedGo c k m l = false →
      List.replicate (k + 1) c <:+: (List.replicate m c ++ l) := by
  intro l
  induction l with
  | nil => intro m h; rw [cappedGo] at h; cases h
  | cons a l ih =>
    intro m h
    by_cases hac : a = c
    · rw [cappedGo, if_pos hac] at h
      have hrepl : List.replicate m c ++ a :: l = List.replicate (m + 1) c ++ l := by
        rw [hac, List.replicate_succ' m c, List.append_assoc, List.singleton_append]
      by_cases hmk : m + 1 ≤ k
      · have h2 : cappedGo c k (m + 1) l = false := by
          rcases Bool.and_eq_false_iff.mp h with h' | h'
          · rw [decide_eq_false_iff_not] at h'
            exact absurd hmk h'
          · exact h'
        rw [hrepl]
        exact ih h2
      · rw [hrepl]
        refine List.IsInfix.trans
          (?_ : List.replicate (k + 1) c <:+: List.replicate (m + 1) c) ⟨[], l, by simp⟩
        refine List.IsPrefix.isInfix ?_
        refine ⟨List.replicate (m + 1 - (k + 1)) c, ?_⟩
        rw [← List.replicate_add]
        congr 1
        omega
    · rw [cappedGo, if_neg hac] at h
      have h0 := ih (m := 0) h
      simp only [List.replicate_zero, List.nil_append] at h0
      exact h0.trans ⟨List.replicate m c ++ [a], [], by simp⟩

lemma capped_replicate_false {c : Char} {k : Nat} :
    ∀ {j : Nat}, 1 ≤ j → ∀ {m : Nat} {l : List Char}, k + 1 ≤ m + j →
      cappedGo c k m (List.replicate j c ++ l) = false := by
  intro j
  induction j with
  | zero => omega
  | succ j ih =>
    intro _ m l hkm
    rw [List.replicate_succ, List.cons_append, cappedGo, if_pos rfl]
    by_cases hj : 1 ≤ j
    · by_cases hmk : m + 1 ≤ k
      · rw [ih hj (by omega)]; simp
      · simp [show ¬ (m + 1 ≤ k) from hmk]
    · have hj0 : j = 0 := by omega
      subst hj0
      have : ¬ (m + 1 ≤ k) := by omega
      simp [this]

lemma capped_append_false {c : Char} {k : Nat} {t : List Char}
    (ht : ∀ n, cappedGo c k n t = false) :
    ∀ (s : List Char) {m : Nat}, cappedGo c k m (s ++ t) = false := by
  intro s
  induction s with
  | nil => intro m; exact ht m
  | cons a s ih =>
    intro m
    by_cases hac : a = c
    · rw [List.cons_append, cappedGo, if_pos hac, ih]; simp
    · rw [List.cons_append, cappedGo, if_neg hac, ih]

lemma capped_iff_no_run {c : Char} {k : Nat} {l : List Char} :
    cappedGo c k 0 l = true ↔ ¬ (List.replicate (k + 1) c <:+: l) := by
  constructor
  · intro h hinf
    rcases hinf with ⟨s, t, hst⟩
    have hbad : ∀ n, cappedGo c k n (List.replicate (k + 1) c ++ t) = false :=
      fun n => capped_replicate_false (by omega) (by omega)
    have := capped_append_false hbad s (m := 0)
    rw [← List.append_assoc, hst] at this
    rw [h] at this; cases this
  · intro h
    by_contra hcap
    have hfalse : cappedGo c k 0 l = false := by
      cases hc : cappedGo c k 0 l
      · rfl
      · exact absurd hc hcap
    have := capped_false_infix hfalse
    simp only [List.replicate, List.nil_append] at this
    exact h (by simpa using this)

lemma capped_of_infix {c : Char} {k : Nat} {s l : List Char} (hs : s <:+: l)
    (h : cappedGo c k 0 l = true) : cappedGo c k 0 s = true := by
  rw [capped_iff_no_run] at h ⊢
  exact fun hr => h (hr.trans hs)

lemma capped_reverse {c : Char} {k : Nat} {l : List Char}
    (h : cappedGo c k 0 l = true) : cappedGo c k 0 l.reverse = true := by
  rw [capped_iff_no_run] at h ⊢
  intro hr
  apply h
  have := List.reverse_infix.mpr hr
  simpa using this

lemma capped_of_not_mem {c : Char} {k : Nat} :
    ∀ {l : List Char}, (∀ a ∈ l, a ≠ c) → ∀ {n : Nat}, cappedGo c k n l = true := by
  intro l
  induction l with
  | nil => intro _ n; rfl
  | cons a l ih =>
    intro h n
    rw [cappedGo, if_neg (h a (by simp))]
    exact ih (fun b hb => h b (by simp [hb]))

lemma allowed_range {c : Char} (h : allowedChar c = true) :
    c.toNat = 45 ∨ c.toNat = 46 ∨ (48 ≤ c.toNat ∧ c.toNat ≤ 57) ∨ c.toNat = 95 ∨
      (97 ≤ c.toNat ∧ c.toNat ≤ 122) := by
  simp only [allowedChar, isLowerAlpha, isDigitCh, Bool.or_eq_true, Bool.and_eq_true,
    decide_eq_true_eq, Nat.beq_eq, beq_iff_eq] at h
  omega

lemma ne_of_allowed {y : List Char} (hall : ∀ a ∈ y, allowedChar a = true)
    {c : Char} (hc : allowedChar c = false) : ∀ a ∈ y, a ≠ c := by
  intro a ha he
  have h := hall a ha
  rw [he, hc] at h
  cases h

lemma nfkdChar_eq_self {c : Char} (h : allowedChar c = true) : nfkdChar c = [c] := by
  have hr := allowed_range h
  have h1 : c ≠ chAuml := fun e => by rw [e] at hr; revert hr; decide
  have h2 : c ≠ chOuml := fun e => by rw [e] at hr; revert hr; decide
  have h3 : c ≠ chUuml := fun e => by rw [e] at hr; revert hr; decide
  have h4 : c ≠ chAumlU := fun e => by rw [e] at hr; revert hr; decide
  have h5 : c ≠ chOumlU := fun e => by rw [e] at hr; revert hr; decide
  have h6 : c ≠ chUumlU := fun e => by rw [e] at hr; revert hr; decide
  simp [nfkdChar, h1, h2, h3, h4, h5, h6]

lemma nfkd_eq_self {l : List Char} (h : ∀ a ∈ l, allowedChar a = true) :
    nfkd l = l := by
  induction l with
  | nil => rfl
  | cons a l ih =>
    rw [nfkd, List.flatMap_cons, nfkdChar_eq_self (h a (by simp))]
    rw [nfkd] at ih
    rw [ih (fun b hb => h b (by simp [hb]))]
    rfl

lemma lowerChar_eq_self {c : Char} (h : allowedChar c = true) : lowerChar c = c := by
  have hr := allowed_range h
  have h1 : (65 ≤ c.toNat && c.toNat ≤ 90) = false := by
    simp only [Bool.and_eq_false_iff, decide_eq_false_iff_not]
    omega
  have h2 : c ≠ chSharpSU := fun e => by rw [e] at hr; revert hr; decide
  rw [lowerChar, h1]
  simp [h2]

lemma map_lowerChar_eq_self {l : List Char} (h : ∀ a ∈ l, allowedChar a = true) :
    l.map lowerChar = l := by
  induction l with
  | nil => rfl
  | cons a l ih =>
    rw [List.map_cons, lowerChar_eq_self (h a (by simp)),
      ih (fun b hb => h b (by simp [hb]))]

lemma replCh_eq_self {c : Char} {r l : List Char} (h : ∀ a ∈ l, a ≠ c) :
    replCh c r l = l := by
  induction l with
  | nil => rfl
  | cons a l ih =>
    rw [replCh, List.flatMap_cons, if_neg (h a (by simp))]
    rw [replCh] at ih
    rw [ih (fun b hb => h b (by simp [hb]))]
    rfl

lemma pySpace_eq_false_of_allowed {c : Char} (h : allowedChar c = true) :
    pySpace c = false := by
  have hr := allowed_range h
  cases hps : pySpace c with
  | false => rfl
  | true =>
    exfalso
    simp only [pySpace, Bool.or_eq_true, Bool.and_eq_true, decide_eq_true_eq,
      beq_iff_eq] at hps
    omega

lemma wsCollapseGo_eq_self {l : List Char} (h : ∀ a ∈ l, pySpace a = false) :
    ∀ b, wsCollapseGo b l = l := by
  induction l with
  | nil => intro b; rfl
  | cons a l ih =>
    intro b
    rw [wsCollapseGo, if_neg (by simp [h a (by simp)])]
    rw [ih (fun x hx => h x (by simp [hx])) false]

lemma mem_capRunGo {c : Char} {k : Nat} :
    ∀ {l : List Char} {n : Nat} {a : Char}, a ∈ capRunGo c k n l → a ∈ l := by
  intro l
  induction l with
  | nil => intro n a h; rw [capRunGo] at h; cases h
  | cons b l ih =>
    intro n a h
    by_cases hbc : b = c
    · rw [capRunGo, if_pos hbc] at h
      by_cases hnk : n < k
      · rw [if_pos hnk] at h
        rcases List.mem_cons.mp h with h | h
        · simp [h]
        · simp [ih h]
      · rw [if_neg hnk] at h
        simp [ih h]
    · rw [capRunGo, if_neg hbc] at h
      rcases List.mem_cons.mp h with h | h
      · simp [h]
      · simp [ih h]

lemma dropWhile_eq_self_of {p : Char → Bool} {l : List Char}
    (h : ∀ a ∈ l, p a = false) : l.dropWhile p = l := by
  cases l with
  | nil => rfl
  | cons a l => rw [List.dropWhile_cons, if_neg (by simp [h a (by simp)])]

lemma dropWhile_cons_head {p : Char → Bool} :
    ∀ {l : List Char} {a : Char} {r : List Char}, l.dropWhile p = a :: r →
      p a = false := by
  intro l
  induction l with
  | nil => intro a r h; cases h
  | cons b t ih =>
    intro a r h
    rw [List.dropWhile_cons] at h
    by_cases hb : p b = true
    · rw [if_pos hb] at h
      exact ih h
    · rw [if_neg hb] at h
      cases h
      simpa using hb

lemma stripEnds_eq_self_of {l : List Char} (h : ∀ a ∈ l, stripSet a = false) :
    stripEnds l = l := by
  rw [stripEnds, dropWhile_eq_self_of h,
    dropWhile_eq_self_of (fun a ha => h a (List.mem_reverse.mp ha)), List.reverse_reverse]

lemma stripEnds_within (l : List Char) : stripEnds l <:+: l := by
  obtain ⟨t, ht⟩ :=
    List.dropWhile_suffix (l := (l.dropWhile stripSet).reverse) stripSet
  have hpre : stripEnds l <+: l.dropWhile stripSet := by
    refine ⟨t.reverse, ?_⟩
    have := congrArg List.reverse ht
    rw [List.reverse_append, List.reverse_reverse] at this
    exact this
  exact hpre.isInfix.trans (List.dropWhile_suffix stripSet).isInfix

lemma mem_stripEnds {a : Char} {l : List Char} (h : a ∈ stripEnds l) : a ∈ l :=
  List.IsInfix.mem h (stripEnds_within l)

lemma stripEnds_idem (l : List Char) : stripEnds (stripEnds l) = stripEnds l := by
  by_cases hv : stripEnds l = []
  · rw [hv]; rfl
  · have hd1 : List.dropWhile stripSet (stripEnds l) = stripEnds l := by
      obtain ⟨t, ht⟩ :=
        List.dropWhile_suffix (l := (l.dropWhile stripSet).reverse) stripSet
      have hu : stripEnds l ++ t.reverse = l.dropWhile stripSet := by
        have := congrArg List.reverse ht
        rw [List.reverse_append, List.reverse_reverse] at this
        exact this
      cases hse : stripEnds l with
      | nil => exact absurd hse hv
      | cons a x =>
        have hha : l.dropWhile stripSet = a :: (x ++ t.reverse) := by
          rw [← hu, hse]; rfl
        have hhead : stripSet a = false := dropWhile_cons_head hha
        rw [List.dropWhile_cons, if_neg (by simp [hhead])]
    have hd2 : List.dropWhile stripSet (stripEnds l).reverse = (stripEnds l).reverse := by
      have : (stripEnds l).reverse =
          List.dropWhile stripSet (l.dropWhile stripSet).reverse := by
        rw [stripEnds, List.reverse_reverse]
      rw [this, List.dropWhile_idempotent]
    rw [stripEnds, hd1, hd2, List.reverse_reverse]

lemma stripZeros_ne_nil (l : List Char) : stripZeros l ≠ [] := by
  rw [stripZeros]
  cases h : l.dropWhile (· == '0') with
  | nil => simp
  | cons a r => simp

lemma mem_stripZeros {a : Char} {l : List Char} (h : a ∈ stripZeros l) :
    a ∈ l ∨ a = '0' := by
  rw [stripZeros] at h
  cases hd : l.dropWhile (· == '0') with
  | nil => rw [hd] at h; right; simpa using h
  | cons b r =>
    rw [hd] at h
    left
    exact List.Sublist.mem (hd ▸ h) (List.dropWhile_sublist (· == '0'))

lemma stripZeros_all_digit {l : List Char} (h : ∀ a ∈ l, isDigitCh a = true) :
    ∀ a ∈ stripZeros l, isDigitCh a = true := by
  intro a ha
  rcases mem_stripZeros ha with h' | h'
  · exact h a h'
  · rw [h']; decide

lemma stripZeros_idem (l : List Char) : stripZeros (stripZeros l) = stripZeros l := by
  cases hd : l.dropWhile (· == '0') with
  | nil =>
    have h1 : stripZeros l = ['0'] := by rw [stripZeros, hd]
    rw [h1]
    decide
  | cons a r =>
    have h1 : stripZeros l = a :: r := by rw [stripZeros, hd]
    have hhead : (a == '0') = false := dropWhile_cons_head (p := (· == '0')) hd
    rw [h1, stripZeros, List.dropWhile_cons, if_neg (by simp [hhead])]

lemma allowed_of_digit {a : Char} (h : isDigitCh a = true) : allowedChar a = true := by
  simp [allowedChar, h]

lemma stripSet_eq_false_of_digit {a : Char} (h : isDigitCh a = true) :
    stripSet a = false := by
  simp only [isDigitCh, Bool.and_eq_true, decide_eq_true_eq] at h
  cases hs : stripSet a with
  | false => rfl
  | true =>
    exfalso
    simp only [stripSet, Bool.or_eq_true, beq_iff_eq] at hs
    omega

lemma ne_underscore_of_digit {a : Char} (h : isDigitCh a = true) : a ≠ '_' := by
  intro e
  rw [e] at h
  revert h
  decide

lemma ne_dot_of_digit {a : Char} (h : isDigitCh a = true) : a ≠ '.' := by
  intro e
  rw [e] at h
  revert h
  decide

lemma ne_hyphen_of_digit {a : Char} (h : isDigitCh a = true) : a ≠ '-' := by
  intro e
  rw [e] at h
  revert h
  decide

lemma sanitizeChars_eq (l : List Char) : sanitizeChars l =
    digitNormalize (stripEnds (capRun '-' 2 (capRun '.' 2 (capRun '_' 1
      ((replCh ',' [] (wsCollapse (replCh '+' ['.', '.'] (replCh '/' ['-', '-']
        (replCh chSharpS ['s', 's'] (replCh chUuml ['u', 'e'] (replCh chOuml ['o', 'e']
          (replCh chAuml ['a', 'e'] ((nfkd l).map lowerChar))))))))).filter
            allowedChar))))) := rfl

lemma sanitizeChars_canon (l : List Char) : Canon (sanitizeChars l) := by
  rw [sanitizeChars_eq]
  generalize (replCh ',' [] (wsCollapse (replCh '+' ['.', '.'] (replCh '/' ['-', '-']
    (replCh chSharpS ['s', 's'] (replCh chUuml ['u', 'e'] (replCh chOuml ['o', 'e']
      (replCh chAuml ['a', 'e'] ((nfkd l).map lowerChar))))))))) = s6
  set s7 := s6.filter allowedChar with hs7
  have h7 : ∀ a ∈ s7, allowedChar a = true := fun a ha => (List.mem_filter.mp ha).2
  set s8 := capRun '-' 2 (capRun '.' 2 (capRun '_' 1 s7)) with hs8
  have h8 : ∀ a ∈ s8, allowedChar a = true := by
    intro a ha
    exact h7 a (mem_capRunGo (mem_capRunGo (mem_capRunGo ha)))
  have capU8 : cappedGo '_' 1 0 s8 = true := by
    have c1 : cappedGo '_' 1 0 (capRun '_' 1 s7) = true :=
      capped_capRunGo (fun _ => Nat.le_refl 0)
    have c2 : cappedGo '_' 1 0 (capRun '.' 2 (capRun '_' 1 s7)) = true :=
      capped_capRunGo_other (by decide) (by omega) (fun _ => rfl) c1
    exact capped_capRunGo_other (by decide) (by omega) (fun _ => rfl) c2
  have capD8 : cappedGo '.' 2 0 s8 = true := by
    have c1 : cappedGo '.' 2 0 (capRun '.' 2 (capRun '_' 1 s7)) = true :=
      capped_capRunGo (fun _ => Nat.le_refl 0)
    exact capped_capRunGo_other (by decide) (by omega) (fun _ => rfl) c1
  have capH8 : cappedGo '-' 2 0 s8 = true :=
    capped_capRunGo (fun _ => Nat.le_refl 0)
  set s9 := stripEnds s8 with hs9
  have h9 : ∀ a ∈ s9, allowedChar a = true := fun a ha => h8 a (mem_stripEnds ha)
  have capU9 : cappedGo '_' 1 0 s9 = true := capped_of_infix (stripEnds_within s8) capU8
  have capD9 : cappedGo '.' 2 0 s9 = true := capped_of_infix (stripEnds_within s8) capD8
  have capH9 : cappedGo '-' 2 0 s9 = true := capped_of_infix (stripEnds_within s8) capH8
  by_cases hdig : s9 ≠ [] ∧ s9.all isDigitCh
  · have hdn : digitNormalize s9 = stripZeros s9 := by
      rw [digitNormalize, if_pos hdig]
    have hzd : ∀ a ∈ stripZeros s9, isDigitCh a = true :=
      stripZeros_all_digit (List.all_eq_true.mp hdig.2)
    rw [hdn]
    refine ⟨fun a ha => allowed_of_digit (hzd a ha), ?_, ?_, ?_, ?_, ?_⟩
    · exact capped_of_not_mem (fun a ha => ne_underscore_of_digit (hzd a ha))
    · exact capped_of_not_mem (fun a ha => ne_dot_of_digit (hzd a ha))
    · exact capped_of_not_mem (fun a ha => ne_hyphen_of_digit (hzd a ha))
    · exact stripEnds_eq_self_of (fun a ha => stripSet_eq_false_of_digit (hzd a ha))
    · rw [digitNormalize,
        if_pos ⟨stripZeros_ne_nil s9, List.all_eq_true.mpr hzd⟩, stripZeros_idem]
  · have hdn : digitNormalize s9 = s9 := by rw [digitNormalize, if_neg hdig]
    rw [hdn]
    refine ⟨h9, capU9, capD9, capH9, ?_, ?_⟩
    · rw [hs9, stripEnds_idem]
    · rw [digitNormalize, if_neg hdig]

lemma sanitizeChars_of_canon {y : List Char} (h : Canon y) : sanitizeChars y = y := by
  have hall := h.allowed
  rw [sanitizeChars_eq, nfkd_eq_self hall, map_lowerChar_eq_self hall,
    replCh_eq_self (ne_of_allowed hall (by decide)),
    replCh_eq_self (ne_of_allowed hall (by decide)),
    replCh_eq_self (ne_of_allowed hall (by decide)),
    replCh_eq_self (ne_of_allowed hall (by decide)),
    replCh_eq_self (ne_of_allowed hall (by decide)),
    replCh_eq_self (ne_of_allowed hall (by decide))]
  rw [wsCollapse, wsCollapseGo_eq_self (fun a ha => pySpace_eq_false_of_allowed (hall a ha))]
  rw [replCh_eq_self (ne_of_allowed hall (by decide))]
  rw [List.filter_eq_self.mpr hall]
  have e1 : capRun '_' 1 y = y := by rw [capRun]; exact capRunGo_eq_self h.capU
  have e2 : capRun '.' 2 y = y := by rw [capRun]; exact capRunGo_eq_self h.capD
  have e3 : capRun '-' 2 y = y := by rw [capRun]; exact capRunGo_eq_self h.capH
  rw [e1, e2, e3, h.stripped, h.dign]

lemma sanitizeChars_idem (l : List Char) :
    sanitizeChars (sanitizeChars l) = sanitizeChars l :=
  sanitizeChars_of_canon (sanitizeChars_canon l)

lemma sanitize_name_eq (s : String) : sanitize_name s =
    if sanitizeChars s.data = [] then "x" else String.mk (sanitizeChars s.data) := rfl

lemma mk_data (l : List Char) : (String.mk l).data = l := rfl

lemma foldl_max_le {f : Entry → Nat} {k : Nat} :
    ∀ {l : List Entry} {acc : Nat},
      (l.foldl (fun m e => max m (f e)) acc ≤ k ↔ acc ≤ k ∧ ∀ e ∈ l, f e ≤ k) := by
  intro l
  induction l with
  | nil => intro acc; simp
  | cons a l ih =>
    intro acc
    rw [List.foldl_cons, ih]
    constructor
    · rintro ⟨h1, h2⟩
      exact ⟨by omega, fun e he => by
        rcases List.mem_cons.mp he with he | he
        · subst he; omega
        · exact h2 e he⟩
    · rintro ⟨h1, h2⟩
      exact ⟨by have := h2 a (by simp); omega, fun e he => h2 e (by simp [he])⟩

lemma maxFileDepth_le_iff {fs : FS} {k : Nat} :
    maxFileDepth fs ≤ k ↔ ∀ e ∈ fs, e.isDir = false → e.path.length - 1 ≤ k := by
  rw [maxFileDepth, foldl_max_le]
  constructor
  · rintro ⟨-, h⟩ e he hd
    exact h e (List.mem_filter.mpr ⟨he, by simp [hd]⟩)
  · intro h
    refine ⟨Nat.zero_le k, fun e he => ?_⟩
    rcases List.mem_filter.mp he with ⟨he1, he2⟩
    exact h e he1 (by simpa using he2)

/-! ## Claim theorems -/

/-- C5 (code bug): evaluating the code at the failing input
`"Müller, Straße"` yields `"muller_strasse"`, not the documented
`"mueller_strasse"`: `unicodedata.normalize('NFKD', ...)` decomposes
the precomposed ü into `u` + U+0308 before `replace('ü','ue')` runs,
so the umlaut replacement never fires and the combining mark is later
dropped by the allow-list filter, while ß (no NFKD decomposition) is
still mapped to `ss`, the comma is removed and the space becomes an
underscore. -/
theorem sanitize_mueller_eval :
    sanitize_name muellerInput = "muller_strasse" ∧
      sanitize_name muellerInput ≠ "mueller_strasse" := by
  exact ⟨by decide, by decide⟩

/-- C9: `sanitize` is idempotent — re-sanitizing any sanitized string
returns it unchanged. -/
theorem sanitize_name_idem (s : String) :
    sanitize_name (sanitize_name s) = sanitize_name s := by
  by_cases h : sanitizeChars s.data = []
  · rw [sanitize_name_eq s, if_pos h]
    decide
  · rw [sanitize_name_eq s, if_neg h, sanitize_name_eq, mk_data, sanitizeChars_idem,
      if_neg h]

/-- C10: for every input, the output of `sanitize` is a nonempty string
over the alphabet `[a-z0-9._-]` (so it matches `^[a-z0-9._-]+$`), with
the literal `"x"` fallback exactly when sanitization leaves nothing. -/
theorem sanitize_name_format (s : String) :
    (sanitize_name s).data ≠ [] ∧
      (∀ c ∈ (sanitize_name s).data, allowedChar c = true) ∧
      (sanitizeChars s.data = [] → sanitize_name s = "x") := by
  rw [sanitize_name_eq s]
  by_cases h : sanitizeChars s.data = []
  · rw [if_pos h]
    exact ⟨by decide, by decide, fun _ => rfl⟩
  · rw [if_neg h]
    simp only [mk_data]
    exact ⟨h, (sanitizeChars_canon s.data).allowed, fun hc => absurd hc h⟩

/-- Witness for C10 at a concrete input that sanitizes to nothing: two
spaces collapse to an underscore, which the final strip removes, so the
`"x"` fallback fires. -/
theorem sanitize_name_format_witness :
    (sanitize_name (String.mk [' ', ' '])).data ≠ [] ∧
      sanitize_name (String.mk [' ', ' ']) = "x" :=
  ⟨(sanitize_name_format (String.mk [' ', ' '])).1,
    (sanitize_name_format (String.mk [' ', ' '])).2.2 (by decide)⟩

/-- Depth-5 fixture for the depth guard: one file whose containing
directory is five levels below the root (limit 4). -/
def fsDepth5 : FS :=
  [⟨["a"], true, 0⟩, ⟨["a", "b"], true, 0⟩, ⟨["a", "b", "c"], true, 0⟩,
   ⟨["a", "b", "c", "d"], true, 0⟩, ⟨["a", "b", "c", "d", "e"], true, 0⟩,
   ⟨["a", "b", "c", "d", "e", "f.jpg"], false, 1⟩]

/-- Root-context fixture. -/
def rcW : RootCtx := ⟨"root", "parent", "grand"⟩

/-- C3: the depth check passes exactly when every file's containing
directory is within `MAX_RELATIVE_DEPTH` levels of the root, and when
it fails the whole run aborts before any mutation: the pipeline
returns the tree unchanged with no action performed. -/
theorem depth_guard_aborts (o : Oracle) (rc : RootCtx) (fs : FS) (dry : Bool) :
    (check_max_relative_depth fs = true ↔
      ∀ e ∈ fs, e.isDir = false → e.path.length - 1 ≤ MAX_RELATIVE_DEPTH) ∧
    (check_max_relative_depth fs = false → runPipeline o rc fs dry = (fs, [])) := by
  constructor
  · rw [check_max_relative_depth, decide_eq_true_eq]
    exact maxFileDepth_le_iff
  · intro h
    rw [runPipeline, h]
    rfl

/-- Witness for C3 at the depth-5 fixture: the check fails and the
pipeline leaves the tree untouched and logs nothing. -/
theorem depth_guard_aborts_witness :
    check_max_relative_depth fsDepth5 = false ∧
      runPipeline noFail rcW fsDepth5 false = (fsDepth5, []) :=
  ⟨by decide, (depth_guard_aborts noFail rcW fsDepth5 false).2 (by decide)⟩

lemma uniquePathGo_finds {ex : List String → Bool} {target : List String} :
    ∀ {fuel i N : Nat}, i ≤ N → N < i + fuel →
      (∀ j, i ≤ j → j < N → ex (dupCandidate target j) = true) →
      ex (dupCandidate target N) = false →
      uniquePathGo ex target i fuel = some (dupCandidate target N) := by
  intro fuel
  induction fuel with
  | zero => intro i N h1 h2; omega
  | succ fuel ih =>
    intro i N h1 h2 hall hN
    rw [uniquePathGo]
    by_cases hiN : i = N
    · subst hiN
      rw [if_neg (by simp [hN])]
    · rw [if_pos (hall i (Nat.le_refl i) (by omega))]
      exact ih (by omega) (by omega) (fun j hj1 hj2 => hall j (by omega) hj2) hN

/-- Sibling-collision fixture: two sibling directories `A` and `A.`,
both sanitizing to `a`, each holding one file with distinct content. -/
def fsSib : FS :=
  [⟨["A"], true, 0⟩, ⟨["A", "f.jpg"], false, 1⟩,
   ⟨["A."], true, 0⟩, ⟨["A.", "g.jpg"], false, 2⟩]

/-- Expected tree after a real run on `fsSib`: one directory `a`, the
other `a_dup1`, each still holding its own (renamed) file with its
original content. -/
def fsSibExpected : FS :=
  [⟨["a"], true, 0⟩, ⟨["a_dup1"], true, 0⟩,
   ⟨["a", "parent_x_nr_a_0001.jpg"], false, 1⟩,
   ⟨["a_dup1", "parent_x_nr_a_dup1_0001.jpg"], false, 2⟩]

/-- C7: the collision resolver returns the desired target unchanged
when it does not exist, and otherwise the first candidate
`_dup{N}` (`N = 1..max_attempts`) that does not exist; consequently two
sibling directories that sanitize to the same name end up as `a` and
`a_dup1` after a real run, neither set of contents overwriting the
other. -/
theorem unique_path_spec_and_siblings :
    (∀ (ex : List String → Bool) (target : List String),
      (ex target = false → unique_path ex target = some target) ∧
      (∀ N, 1 ≤ N → N ≤ 99 → ex target = true →
        (∀ j, 1 ≤ j → j < N → ex (dupCandidate target j) = true) →
        ex (dupCandidate target N) = false →
        unique_path ex target = some (dupCandidate target N))) ∧
    (runPipeline noFail rcW fsSib false).1 = fsSibExpected := by
  constructor
  · intro ex target
    constructor
    · intro h
      rw [unique_path, if_neg (by simp [h])]
    · intro N h1 h99 hex hall hN
      rw [unique_path, if_pos hex]
      exact uniquePathGo_finds h1 (by omega) hall hN
  · decide

/-- Witness for C7: the resolver leaves the fresh target `B` unchanged
over `fsSib`, and diverts the occupied target `A` to `A_dup1`. -/
theorem unique_path_spec_witness :
    unique_path (fsHas fsSib) ["B"] = some ["B"] ∧
      unique_path (fsHas fsSib) ["A"] = some (dupCandidate ["A"] 1) :=
  ⟨(unique_path_spec_and_siblings.1 (fsHas fsSib) ["B"]).1 (by decide),
    (unique_path_spec_and_siblings.1 (fsHas fsSib) ["A"]).2 1 (by decide) (by decide)
      (by decide) (fun j hj1 hj2 => by omega) (by decide)⟩

/-- Fixture for the stage-copy failure: one leaf directory `d` with two
files; the copy of the second file raises. -/
def fsC1 : FS :=
  [⟨["d"], true, 0⟩, ⟨["d", "a.jpg"], false, 11⟩, ⟨["d", "b.jpg"], false, 12⟩]

/-- Oracle failing exactly the stage copy of `d/b.jpg`. -/
def oC1 : Oracle := { noFail with copyFail := fun src _ => src == ["d", "b.jpg"] }

/-- C1 (code bug): when the stage copy of `d/b.jpg` fails, the staged
copy of `d/a.jpg` is indeed deleted (`ROLLBACK_DELETE`) and the loop
breaks — but the mappings list is not cleared, so the commit loop still
iterates over it: it deletes the original `d/a.jpg`
(`DELETED_ORIGINAL`) and then fails to move the already-deleted staged
copy (`ERROR_MOVE_FINAL`), losing the file.  The final tree no longer
contains `d/a.jpg` in any form, contradicting the claimed
directory-scoped abort with no commit action. -/
theorem stage_copy_failure_data_loss :
    (runPipeline oC1 rcW fsC1 false).1 =
      [⟨["d"], true, 0⟩, ⟨["d", "b.jpg"], false, 12⟩] ∧
    Action.rollbackDelete ["_files_", "d", "parent_x_nr_d_0001.jpg"] ∈
      (runPipeline oC1 rcW fsC1 false).2 ∧
    Action.deletedOriginal ["d", "a.jpg"] ∈ (runPipeline oC1 rcW fsC1 false).2 ∧
    Action.errorMoveFinal ["_files_", "d", "parent_x_nr_d_0001.jpg"]
      ["d", "parent_x_nr_d_0001.jpg"] ∈ (runPipeline oC1 rcW fsC1 false).2 := by
  refine ⟨by decide, by decide, by decide, by decide⟩

lemma unlinkAt_of_not_has {fs : FS} {p : List String} (h : fsHas fs p = false) :
    unlinkAt fs p = fs := by
  rw [unlinkAt, List.filter_eq_self]
  intro e he
  have hb : (e.path == p) = false := by
    cases hb : e.path == p with
    | false => rfl
    | true =>
      exfalso
      have ha : fs.any (fun e => e.path == p) = true := List.any_eq_true.mpr ⟨e, he, hb⟩
      rw [fsHas, ha] at h
      cases h
  simp [hb]

lemma unlinkAt_unlinkAt (fs : FS) (p : List String) :
    unlinkAt (unlinkAt fs p) p = unlinkAt fs p := by
  rw [unlinkAt, unlinkAt, List.filter_filter]
  apply List.filter_congr
  intro e _
  cases e.path == p <;> rfl

/-- Fixture for the commit phase with a file already bearing its target
name: in directory `a/b/d` the computed name of the one file is its
current name, so the final target path equals the original path. -/
def fsC6 : FS :=
  [⟨["a"], true, 0⟩, ⟨["a", "b"], true, 0⟩, ⟨["a", "b", "d"], true, 0⟩,
   ⟨["a", "b", "d", "a_b_nr_d_0001.jpg"], false, 5⟩]

/-- Original path of the `fsC6` file (equal to its final target). -/
def pC6 : List String := ["a", "b", "d", "a_b_nr_d_0001.jpg"]

/-- C6 counterexample: the commit phase deletes the original even when
its path equals the final target path (the code checks only
`old_path.exists()`, never comparing the paths), refuting "deleted only
if its path differs from the final target". -/
theorem commit_deletes_original_at_equal_target :
    pC6 = pC6.dropLast ++ [(["_files_"] ++ pC6).getLastD ""] ∧
    Action.deletedOriginal pC6 ∈ (runPipeline noFail rcW fsC6 false).2 ∧
    Action.renamedFile pC6 pC6 ∈ (runPipeline noFail rcW fsC6 false).2 := by
  refine ⟨by decide, by decide, by decide⟩

/-- C6 as amended: in the commit phase, for each staging mapping whose
staged file is present, the original file is deleted whenever it still
exists — even when its path equals the final target path — and the
staged file is then moved into the final target path (clearing any
occupant), after which the loop continues with the remaining
mappings. -/
theorem commit_step_deletes_then_moves (fs : FS) (tmp : List Entry)
    (old tmpf : List String) (rest : List (List String × List String))
    (log : List Action) (hstaged : fsHas tmp tmpf = true) :
    commitLoop noFail false ((old, tmpf) :: rest) fs tmp log =
      commitLoop noFail false rest
        (unlinkAt (if fsHas fs old then unlinkAt fs old else fs)
            (old.dropLast ++ [tmpf.getLastD ""]) ++
          [⟨old.dropLast ++ [tmpf.getLastD ""], false, fsContent tmp tmpf⟩])
        (unlinkAt tmp tmpf)
        (log ++ (if fsHas fs old then [Action.deletedOriginal old] else []) ++
          [Action.renamedFile old (old.dropLast ++ [tmpf.getLastD ""])]) := by
  rw [commitLoop]
  simp only [noFail, Bool.and_false, if_neg (by simp : ¬ (false = true)), hstaged,
    Bool.not_true, Bool.false_or]
  by_cases h1 : fsHas (if fsHas fs old then unlinkAt fs old else fs)
      (old.dropLast ++ [tmpf.getLastD ""])
  · rw [if_pos h1, unlinkAt_unlinkAt]
  · rw [if_neg h1, unlinkAt_of_not_has (by simpa using h1)]

/-- Witness for the amended C6 at the `fsC6` fixture with its staged
copy present. -/
theorem commit_step_deletes_then_moves_witness :
    commitLoop noFail false [(pC6, "_files_" :: pC6)] fsC6
        [⟨"_files_" :: pC6, false, 5⟩] [] =
      commitLoop noFail false []
        (unlinkAt (if fsHas fsC6 pC6 then unlinkAt fsC6 pC6 else fsC6)
            (pC6.dropLast ++ [("_files_" :: pC6).getLastD ""]) ++
          [⟨pC6.dropLast ++ [("_files_" :: pC6).getLastD ""], false,
            fsContent [⟨"_files_" :: pC6, false, 5⟩] ("_files_" :: pC6)⟩])
        (unlinkAt [⟨"_files_" :: pC6, false, 5⟩] ("_files_" :: pC6))
        ([] ++ (if fsHas fsC6 pC6 then [Action.deletedOriginal pC6] else []) ++
          [Action.renamedFile pC6 (pC6.dropLast ++ [("_files_" :: pC6).getLastD ""])]) :=
  commit_step_deletes_then_moves fsC6 [⟨"_files_" :: pC6, false, 5⟩] pC6
    ("_files_" :: pC6) [] [] (by decide)

/-! ## Decimal formatting facts -/

lemma toNat_ofNat_digit {r : Nat} (h : r < 10) : (Char.ofNat (48 + r)).toNat = 48 + r := by
  interval_cases r <;> decide

lemma parseDigits_append (xs : List Char) (c : Char) :
    parseDigits (xs ++ [c]) = 10 * parseDigits xs + (c.toNat - 48) := by
  rw [parseDigits, parseDigits, List.foldl_append]
  rfl

lemma natDigitsAux_parse :
    ∀ {fuel n : Nat}, n ≤ fuel → parseDigits (natDigitsAux fuel n) = n := by
  intro fuel
  induction fuel with
  | zero => intro n h; interval_cases n; rfl
  | succ fuel ih =>
    intro n h
    rw [natDigitsAux]
    by_cases hn : n = 0
    · rw [if_pos hn, hn]; rfl
    · rw [if_neg hn, parseDigits_append, ih (by omega : n / 10 ≤ fuel),
        toNat_ofNat_digit (by omega)]
      omega

lemma natToChars_parse (n : Nat) : parseDigits (natToChars n) = n := by
  rw [natToChars]
  by_cases hn : n = 0
  · rw [if_pos hn, hn]; rfl
  · rw [if_neg hn]
    exact natDigitsAux_parse (by omega)

lemma parseDigits_zeros_append (t : List Char) :
    ∀ k, parseDigits (List.replicate k '0' ++ t) = parseDigits t := by
  intro k
  induction k with
  | zero => rfl
  | succ k ih =>
    rw [List.replicate_succ, List.cons_append]
    show parseDigits ('0' :: (List.replicate k '0' ++ t)) = parseDigits t
    rw [parseDigits, List.foldl_cons]
    simpa [parseDigits] using ih

lemma pad4_parse (n : Nat) : parseDigits (pad4 n) = n := by
  rw [pad4, parseDigits_zeros_append, natToChars_parse]

lemma pad4_inj {m n : Nat} (h : pad4 m = pad4 n) : m = n := by
  have := congrArg parseDigits h
  rwa [pad4_parse, pad4_parse] at this

lemma natDigitsAux_digits :
    ∀ {fuel n : Nat}, ∀ a ∈ natDigitsAux fuel n, isDigitCh a = true := by
  intro fuel
  induction fuel with
  | zero => intro n a ha; cases ha
  | succ fuel ih =>
    intro n a ha
    rw [natDigitsAux] at ha
    by_cases hn : n = 0
    · rw [if_pos hn] at ha; cases ha
    · rw [if_neg hn] at ha
      rcases List.mem_append.mp ha with h | h
      · exact ih _ h
      · have : a = Char.ofNat (48 + n % 10) := by simpa using h
        rw [this, isDigitCh, toNat_ofNat_digit (by omega)]
        simp
        omega

lemma pad4_digits {n : Nat} : ∀ a ∈ pad4 n, isDigitCh a = true := by
  intro a ha
  rw [pad4] at ha
  rcases List.mem_append.mp ha with h | h
  · have : a = '0' := by simpa using List.eq_of_mem_replicate h
    rw [this]; decide
  · rw [natToChars] at h
    by_cases hn : n = 0
    · rw [if_pos hn] at h
      have : a = '0' := by simpa using h
      rw [this]; decide
    · rw [if_neg hn] at h
      exact natDigitsAux_digits a h

lemma pad4_ne_nil (n : Nat) : pad4 n ≠ [] := by
  rw [pad4, natToChars]
  by_cases hn : n = 0
  · rw [if_pos hn]; simp
  · rw [if_neg hn]
    intro h
    rcases List.append_eq_nil.mp h with ⟨-, h2⟩
    rw [natDigitsAux, if_neg hn] at h2
    rcases List.append_eq_nil.mp h2 with ⟨-, h3⟩
    cases h3

/-- Cancel a digit block against a dot-led extension: if two
digits-then-extension concatenations agree, the blocks agree. -/
lemma digits_dot_cancel :
    ∀ {D1 D2 E1 E2 : List Char}, (∀ a ∈ D1, isDigitCh a = true) →
      (∀ a ∈ D2, isDigitCh a = true) →
      (∀ a t, E1 = a :: t → a = '.') → (∀ a t, E2 = a :: t → a = '.') →
      D1 ++ E1 = D2 ++ E2 → D1 = D2 ∧ E1 = E2 := by
  intro D1
  induction D1 with
  | nil =>
    intro D2 E1 E2 _ hD2 hE1 hE2 h
    cases D2 with
    | nil => exact ⟨rfl, by simpa using h⟩
    | cons b D2' =>
      exfalso
      rw [List.nil_append, List.cons_append] at h
      cases E1 with
      | nil => simp at h
      | cons a t =>
        have ha : a = '.' := hE1 a t rfl
        have hab : a = b := by simpa using congrArg (List.headD · ' ') h
        have : isDigitCh b = true := hD2 b (by simp)
        rw [← hab, ha] at this
        cases this
  | cons a D1' ih =>
    intro D2 E1 E2 hD1 hD2 hE1 hE2 h
    cases D2 with
    | nil =>
      exfalso
      rw [List.cons_append, List.nil_append] at h
      cases E2 with
      | nil => simp at h
      | cons b t =>
        have hb : b = '.' := hE2 b t rfl
        have hab : a = b := by simpa using congrArg (List.headD · ' ') h
        have : isDigitCh a = true := hD1 a (by simp)
        rw [hab, hb] at this
        cases this
    | cons b D2' =>
      rw [List.cons_append, List.cons_append] at h
      have hab : a = b := by simpa using congrArg (List.headD · ' ') h
      have htail : D1' ++ E1 = D2' ++ E2 := by simpa using congrArg List.tail h
      have := ih (fun x hx => hD1 x (by simp [hx])) (fun x hx => hD2 x (by simp [hx]))
        hE1 hE2 htail
      exact ⟨by rw [hab, this.1], this.2⟩

/-! ## PreCanon and join lemmas -/

lemma length_stripEnds_le (l : List Char) :
    (stripEnds l).length ≤ (l.dropWhile stripSet).length := by
  rw [stripEnds, List.length_reverse]
  calc ((l.dropWhile stripSet).reverse.dropWhile stripSet).length
      ≤ (l.dropWhile stripSet).reverse.length :=
        (List.dropWhile_sublist stripSet).length_le
    _ = (l.dropWhile stripSet).length := List.length_reverse _

lemma stripEnds_fix_head {l : List Char} (h : stripEnds l = l) :
    ∀ a t, l = a :: t → stripSet a = false := by
  intro a t hl
  cases hs : stripSet a with
  | false => rfl
  | true =>
    exfalso
    have h1 : l.dropWhile stripSet = t.dropWhile stripSet := by
      rw [hl, List.dropWhile_cons, if_pos (by simp [hs])]
    have h2 : (stripEnds l).length ≤ t.length := by
      calc (stripEnds l).length ≤ (l.dropWhile stripSet).length := length_stripEnds_le l
        _ = (t.dropWhile stripSet).length := by rw [h1]
        _ ≤ t.length := (List.dropWhile_sublist stripSet).length_le
    rw [h, hl] at h2
    simp at h2

lemma stripEnds_fix_last {l : List Char} (h : stripEnds l = l) :
    ∀ t b, l = t ++ [b] → stripSet b = false := by
  intro t b hl
  cases hs : stripSet b with
  | false => rfl
  | true =>
    exfalso
    have hlen : (l.dropWhile stripSet).length = l.length := by
      have h1 := length_stripEnds_le l
      have h2 := (List.dropWhile_sublist (l := l) stripSet).length_le
      rw [h] at h1
      omega
    have hu : l.dropWhile stripSet = l :=
      (List.dropWhile_suffix stripSet).eq_of_length hlen
    have hrev : l.reverse = b :: t.reverse := by
      rw [hl, List.reverse_append]
      rfl
    have h3 : ((l.dropWhile stripSet).reverse.dropWhile stripSet).length ≤
        t.reverse.length := by
      rw [hu, hrev, List.dropWhile_cons, if_pos (by simp [hs])]
      exact (List.dropWhile_sublist stripSet).length_le
    have h4 : (stripEnds l).length ≤ t.reverse.length := by
      rw [stripEnds, List.length_reverse]
      exact h3
    rw [h, hl] at h4
    simp at h4

lemma stripEnds_eq_self_of_ends {l : List Char}
    (hh : ∀ a t, l = a :: t → stripSet a = false)
    (hl : ∀ t b, l = t ++ [b] → stripSet b = false) : stripEnds l = l := by
  cases l with
  | nil => rfl
  | cons a t =>
    have h1 : (a :: t).dropWhile stripSet = a :: t := by
      rw [List.dropWhile_cons, if_neg (by simp [hh a t rfl])]
    rcases List.eq_nil_or_concat (a :: t) with h | ⟨L, b, hlb⟩
    · cases h
    · rw [List.concat_eq_append] at hlb
      have hb : stripSet b = false := hl L b hlb
      have h2 : (a :: t).reverse.dropWhile stripSet = (a :: t).reverse := by
        rw [hlb, List.reverse_append]
        show (b :: L.reverse).dropWhile stripSet = b :: L.reverse
        rw [List.dropWhile_cons, if_neg (by simp [hb])]
      rw [stripEnds, h1, h2, List.reverse_reverse]

lemma canon_to_precanon {l : List Char} (h : Canon l) (hne : l ≠ []) : PreCanon l :=
  ⟨hne, h.allowed, h.capU, h.capD, h.capH, stripEnds_fix_head h.stripped,
    stripEnds_fix_last h.stripped⟩

lemma precanon_to_canon {l : List Char} (h : PreCanon l)
    (hd : digitNormalize l = l) : Canon l :=
  ⟨h.allowed, h.capU, h.capD, h.capH, stripEnds_eq_self_of_ends h.headOk h.lastOk, hd⟩

lemma capped_append_sep {c s : Char} {k : Nat} (hs : s ≠ c) {Y : List Char}
    (hY : cappedGo c k 0 Y = true) :
    ∀ {X : List Char} {m : Nat}, cappedGo c k m X = true →
      cappedGo c k m (X ++ s :: Y) = true := by
  intro X
  induction X with
  | nil =>
    intro m _
    rw [List.nil_append, cappedGo, if_neg hs]
    exact hY
  | cons a X ih =>
    intro m h
    rw [List.cons_append]
    by_cases hac : a = c
    · rw [cappedGo, if_pos hac] at h ⊢
      rcases (Bool.and_eq_true ..).mp h with ⟨h1, h2⟩
      rw [h1, Bool.true_and]
      exact ih h2
    · rw [cappedGo, if_neg hac] at h ⊢
      exact ih h

lemma capped_append_self {c : Char} {k : Nat} (hk : 1 ≤ k) {Y : List Char}
    (hY : cappedGo c k 0 Y = true) (hYhead : ∀ b t, Y = b :: t → b ≠ c) :
    ∀ {X : List Char} {m : Nat}, (X = [] → m = 0) →
      (∀ t b, X = t ++ [b] → b ≠ c) → cappedGo c k m X = true →
      cappedGo c k m (X ++ c :: Y) = true := by
  intro X
  induction X with
  | nil =>
    intro m hm _ _
    rw [hm rfl, List.nil_append, cappedGo, if_pos rfl]
    have h1 : cappedGo c k 1 Y = true := by
      cases Y with
      | nil => rfl
      | cons b t =>
        have hb : b ≠ c := hYhead b t rfl
        rw [cappedGo, if_neg hb] at hY ⊢
        exact hY
    simp [h1, hk]
  | cons a X ih =>
    intro m _ hlast h
    rw [List.cons_append]
    by_cases hac : a = c
    · have hXne : X ≠ [] := by
        intro hX
        exact hlast [] a (by simp [hX]) hac
      rw [cappedGo, if_pos hac] at h ⊢
      rcases (Bool.and_eq_true ..).mp h with ⟨h1, h2⟩
      rw [h1, Bool.true_and]
      exact ih (fun hX => absurd hX hXne)
        (fun t b ht => hlast (a :: t) b (by rw [ht, List.cons_append])) h2
    · rw [cappedGo, if_neg hac] at h ⊢
      exact ih (fun _ => rfl)
        (fun t b ht => hlast (a :: t) b (by rw [ht, List.cons_append])) h

lemma stripSet_underscore : stripSet '_' = true := by decide

lemma precanon_join {A B : List Char} (hA : PreCanon A) (hB : PreCanon B) :
    PreCanon (A ++ '_' :: B) := by
  refine ⟨by simp, ?_, ?_, ?_, ?_, ?_, ?_⟩
  · intro a ha
    rcases List.mem_append.mp ha with h | h
    · exact hA.allowed a h
    · rcases List.mem_cons.mp h with h | h
      · rw [h]; decide
      · exact hB.allowed a h
  · refine capped_append_self (by omega) hB.capU ?_ (fun h => absurd h hA.ne) ?_ hA.capU
    · intro b t hb hbc
      have := hB.headOk b t hb
      rw [hbc] at this
      rw [stripSet_underscore] at this
      cases this
    · intro t b ht hbc
      have := hA.lastOk t b ht
      rw [hbc, stripSet_underscore] at this
      cases this
  · exact capped_append_sep (by decide) hB.capD hA.capD
  · exact capped_append_sep (by decide) hB.capH hA.capH
  · intro a t h
    cases hAc : A with
    | nil => exact absurd hAc hA.ne
    | cons a0 A' =>
      rw [hAc, List.cons_append] at h
      have ha : a = a0 := by
        have := congrArg (List.headD · ' ') h
        simpa using this.symm
      rw [ha]
      exact hA.headOk a0 A' hAc
  · intro t b h
    rcases List.eq_nil_or_concat B with hB0 | ⟨L, b0, hLb⟩
    · exact absurd hB0 hB.ne
    · rw [List.concat_eq_append] at hLb
      have hform : A ++ '_' :: B = (A ++ '_' :: L) ++ [b0] := by
        rw [hLb]
        simp
      have : some b = some b0 := by
        calc some b = (t ++ [b]).getLast? := (List.getLast?_concat t).symm
          _ = (A ++ '_' :: B).getLast? := by rw [h]
          _ = ((A ++ '_' :: L) ++ [b0]).getLast? := by rw [hform]
          _ = some b0 := List.getLast?_concat _
      have hb : b = b0 := by injection this
      rw [hb]
      exact hB.lastOk L b0 hLb

lemma precanon_pad4 (n : Nat) : PreCanon (pad4 n) := by
  refine ⟨pad4_ne_nil n, fun a ha => allowed_of_digit (pad4_digits a ha), ?_, ?_, ?_, ?_, ?_⟩
  · exact capped_of_not_mem (fun a ha => ne_underscore_of_digit (pad4_digits a ha))
  · exact capped_of_not_mem (fun a ha => ne_dot_of_digit (pad4_digits a ha))
  · exact capped_of_not_mem (fun a ha => ne_hyphen_of_digit (pad4_digits a ha))
  · intro a t h
    exact stripSet_eq_false_of_digit (pad4_digits a (by rw [h]; simp))
  · intro t b h
    exact stripSet_eq_false_of_digit (pad4_digits b (by rw [h]; simp))

lemma precanon_nr : PreCanon ['n', 'r'] := by
  refine ⟨by simp, by decide, by decide, by decide, by decide, ?_, ?_⟩
  · intro a t h
    cases h
    decide
  · intro t b h
    have : some b = some 'r' := by
      calc some b = (t ++ [b]).getLast? := (List.getLast?_concat t).symm
        _ = (['n', 'r'] : List Char).getLast? := by rw [h]
        _ = some 'r' := rfl
    have hb : b = 'r' := by injection this
    rw [hb]
    decide

lemma precanon_x : PreCanon ("x" : String).data := by
  refine ⟨by decide, by decide, by decide, by decide, by decide, ?_, ?_⟩
  · intro a t hx
    cases hx
    decide
  · intro t b hx
    have : some b = some 'x' := by
      calc some b = (t ++ [b]).getLast? := (List.getLast?_concat t).symm
        _ = ("x" : String).data.getLast? := by rw [hx]
        _ = some 'x' := rfl
    have hb : b = 'x' := by injection this
    rw [hb]
    decide

lemma precanon_sanitize (s : String) : PreCanon (sanitize_name s).data := by
  rw [sanitize_name_eq s]
  by_cases h : sanitizeChars s.data = []
  · rw [if_pos h]
    exact precanon_x
  · rw [if_neg h]
    rw [mk_data]
    exact canon_to_precanon (sanitizeChars_canon s.data) h

lemma underscore_mem_newBase (cx : NamingCtx) (seq : Nat) : '_' ∈ newBase cx seq := by
  rw [newBase]
  simp

lemma newBase_assoc (cx : NamingCtx) (seq : Nat) : newBase cx seq =
    cx.grandfather.data ++ '_' :: (cx.father.data ++ '_' ::
      (['n', 'r'] ++ '_' :: (cx.rootname.data ++ '_' :: pad4 seq))) := by
  rw [newBase]
  simp

lemma precanon_newBase {cx : NamingCtx} (hg : PreCanon cx.grandfather.data)
    (hf : PreCanon cx.father.data) (hr : PreCanon cx.rootname.data) (seq : Nat) :
    PreCanon (newBase cx seq) := by
  rw [newBase_assoc]
  exact precanon_join hg (precanon_join hf (precanon_join precanon_nr
    (precanon_join hr (precanon_pad4 seq))))

lemma digitNormalize_newBase (cx : NamingCtx) (seq : Nat) :
    digitNormalize (newBase cx seq) = newBase cx seq := by
  rw [digitNormalize, if_neg]
  rintro ⟨-, hall⟩
  have := List.all_eq_true.mp hall '_' (underscore_mem_newBase cx seq)
  exact absurd this (by decide)

lemma sanitizeChars_newBase {cx : NamingCtx} (hg : PreCanon cx.grandfather.data)
    (hf : PreCanon cx.father.data) (hr : PreCanon cx.rootname.data) (seq : Nat) :
    sanitizeChars (newBase cx seq) = newBase cx seq :=
  sanitizeChars_of_canon (precanon_to_canon (precanon_newBase hg hf hr seq)
    (digitNormalize_newBase cx seq))

lemma newBase_ne_nil (cx : NamingCtx) (seq : Nat) : newBase cx seq ≠ [] := by
  intro h
  have := underscore_mem_newBase cx seq
  rw [h] at this
  cases this

lemma newFileName_data {cx : NamingCtx} {seq : Nat} (ext : List Char)
    (hfix : sanitizeChars (newBase cx seq) = newBase cx seq) :
    (newFileName cx seq ext).data = newBase cx seq ++ ext := by
  rw [newFileName, String.data_append, sanitize_name_eq, mk_data, hfix,
    if_neg (newBase_ne_nil cx seq), mk_data, mk_data]

lemma append3_cancel {A X Y U V : List Char} (h : (A ++ X) ++ U = (A ++ Y) ++ V) :
    X ++ U = Y ++ V := by
  rw [List.append_assoc, List.append_assoc] at h
  exact List.append_cancel_left h

lemma newBase_decomp (cx : NamingCtx) (s : Nat) : newBase cx s =
    (cx.grandfather.data ++ '_' :: cx.father.data ++ '_' :: 'n' :: 'r' :: '_' ::
      cx.rootname.data ++ ['_']) ++ pad4 s := by
  rw [newBase]
  simp [List.append_assoc]

lemma newFileName_inj {cx : NamingCtx} (hg : PreCanon cx.grandfather.data)
    (hf : PreCanon cx.father.data) (hr : PreCanon cx.rootname.data)
    {i j : Nat} {e1 e2 : List Char}
    (he1 : ∀ a t, e1 = a :: t → a = '.') (he2 : ∀ a t, e2 = a :: t → a = '.')
    (h : newFileName cx i e1 = newFileName cx j e2) : i = j ∧ e1 = e2 := by
  have h1 := congrArg String.data h
  rw [newFileName_data e1 (sanitizeChars_newBase hg hf hr i),
    newFileName_data e2 (sanitizeChars_newBase hg hf hr j)] at h1
  rw [newBase_decomp cx i, newBase_decomp cx j] at h1
  have h2 := append3_cancel h1
  have h3 := digits_dot_cancel pad4_digits pad4_digits he1 he2 h2
  exact ⟨pad4_inj h3.1, h3.2⟩

lemma extOf_dot {f : String} (h : allowedFile f = true) :
    ∀ a t, extOf f = a :: t → a = '.' := by
  intro a t he
  simp only [allowedFile, ALLOWED_EXTS, List.contains, List.elem_eq_mem,
    List.mem_cons, decide_eq_true_eq] at h
  rcases h with h | h | h | h | h | h | h
  all_goals first
    | (rw [h] at he; injection he with h1 _; exact h1.symm)
    | (exfalso; simp at h)

/-! ## Stable sort and natural-order comparison facts -/

lemma stableInsert_perm {α : Type _} (le : α → α → Bool) (a : α) :
    ∀ l : List α, (stableInsert le a l).Perm (a :: l) := by
  intro l
  induction l with
  | nil => exact List.Perm.refl _
  | cons b l ih =>
    rw [stableInsert]
    by_cases h : le b a = true
    · rw [if_pos h]
      exact (List.Perm.cons b ih).trans (List.Perm.swap a b l)
    · rw [if_neg h]

lemma stableSort_aux_perm {α : Type _} (le : α → α → Bool) :
    ∀ (l acc : List α),
      (l.foldl (fun acc a => stableInsert le a acc) acc).Perm (acc ++ l) := by
  intro l
  induction l with
  | nil => intro acc; simp
  | cons x xs ih =>
    intro acc
    rw [List.foldl_cons]
    refine (ih _).trans ?_
    refine List.Perm.trans (List.Perm.append_right xs (stableInsert_perm le x acc)) ?_
    exact List.perm_middle.symm

lemma stableSort_perm {α : Type _} (le : α → α → Bool) (l : List α) :
    (stableSort le l).Perm l := by
  have := stableSort_aux_perm le l []
  simpa [stableSort] using this

lemma stableInsert_pairwise {α : Type _} {le : α → α → Bool}
    (htot : ∀ a b, (le a b || le b a) = true)
    (htr : ∀ a b c, le a b = true → le b c = true → le a c = true) (a : α) :
    ∀ {l : List α}, l.Pairwise (fun x y => le x y = true) →
      (stableInsert le a l).Pairwise (fun x y => le x y = true) := by
  intro l
  induction l with
  | nil => intro _; simp [stableInsert]
  | cons b l ih =>
    intro hp
    rcases List.pairwise_cons.mp hp with ⟨hb, hl⟩
    rw [stableInsert]
    by_cases h : le b a = true
    · rw [if_pos h]
      refine List.pairwise_cons.mpr ⟨?_, ih hl⟩
      intro x hx
      rcases List.mem_cons.mp ((stableInsert_perm le a l).mem_iff.mp hx) with h' | h'
      · rw [h']; exact h
      · exact hb x h'
    · rw [if_neg h]
      have hab : le a b = true := by
        rcases (Bool.or_eq_true ..).mp (htot a b) with h1 | h1
        · exact h1
        · exact absurd h1 h
      refine List.pairwise_cons.mpr ⟨?_, hp⟩
      intro x hx
      rcases List.mem_cons.mp hx with h' | h'
      · rw [h']; exact hab
      · exact htr a b x hab (hb x h')

lemma stableSort_pairwise {α : Type _} {le : α → α → Bool}
    (htot : ∀ a b, (le a b || le b a) = true)
    (htr : ∀ a b c, le a b = true → le b c = true → le a c = true) (l : List α) :
    (stableSort le l).Pairwise (fun x y => le x y = true) := by
  suffices h : ∀ (l acc : List α), acc.Pairwise (fun x y => le x y = true) →
      (l.foldl (fun acc a => stableInsert le a acc) acc).Pairwise
        (fun x y => le x y = true) by
    exact h l [] (by simp)
  intro l
  induction l with
  | nil => intro acc hacc; exact hacc
  | cons x xs ih =>
    intro acc hacc
    rw [List.foldl_cons]
    exact ih _ (stableInsert_pairwise htot htr x hacc)

lemma cmpChars_swap : ∀ a b : List Char, cmpChars b a = (cmpChars a b).swap := by
  intro a
  induction a with
  | nil => intro b; cases b <;> rfl
  | cons x s ih =>
    intro b
    cases b with
    | nil => rfl
    | cons y t =>
      rw [cmpChars, cmpChars]
      rcases Nat.lt_trichotomy x.toNat y.toNat with h | h | h
      · rw [if_neg (by omega), if_pos h, if_pos h]
        rfl
      · rw [if_neg (by omega), if_neg (by omega), if_neg (by omega),
          if_neg (by omega)]
        exact ih t
      · rw [if_pos h, if_neg (by omega), if_pos h]
        rfl

lemma cmpChars_eq_trans :
    ∀ {a b : List Char}, cmpChars a b = .eq → ∀ c, cmpChars b c = cmpChars a c := by
  intro a
  induction a with
  | nil =>
    intro b h c
    cases b with
    | nil => rfl
    | cons y t => rw [cmpChars] at h; cases h
  | cons x s ih =>
    intro b h c
    cases b with
    | nil => rw [cmpChars] at h; cases h
    | cons y t =>
      rw [cmpChars] at h
      have hxy : x.toNat = y.toNat := by
        by_cases h1 : x.toNat < y.toNat
        · rw [if_pos h1] at h; cases h
        · by_cases h2 : y.toNat < x.toNat
          · rw [if_neg h1, if_pos h2] at h; cases h
          · omega
      rw [if_neg (by omega), if_neg (by omega)] at h
      cases c with
      | nil => rfl
      | cons z u =>
        rw [cmpChars, cmpChars, hxy]
        rcases Nat.lt_trichotomy y.toNat z.toNat with h1 | h1 | h1
        · rw [if_pos h1, if_pos h1]
        · rw [if_neg (by omega), if_neg (by omega), if_neg (by omega),
            if_neg (by omega)]
          exact ih h u
        · rw [if_neg (by omega), if_pos h1, if_neg (by omega), if_pos h1]

lemma cmpChars_lt_of_lt_of_le :
    ∀ {a b c : List Char}, cmpChars a b = .lt → cmpChars b c ≠ .gt →
      cmpChars a c = .lt := by
  intro a
  induction a with
  | nil =>
    intro b c h1 h2
    cases b with
    | nil => rw [cmpChars] at h1; cases h1
    | cons y t =>
      cases c with
      | nil => rw [cmpChars] at h2; exact absurd rfl h2
      | cons z u => rfl
  | cons x s ih =>
    intro b c h1 h2
    cases b with
    | nil => rw [cmpChars] at h1; cases h1
    | cons y t =>
      cases c with
      | nil => rw [cmpChars] at h2; exact absurd rfl h2
      | cons z u =>
        rw [cmpChars] at h1 h2 ⊢
        have hxy : x.toNat ≤ y.toNat := by
          by_contra hc
          rw [if_neg (by omega), if_pos (by omega)] at h1
          cases h1
        have hyz : y.toNat ≤ z.toNat := by
          by_contra hc
          rw [if_neg (by omega), if_pos (by omega)] at h2
          exact absurd rfl h2
        by_cases hxz : x.toNat < z.toNat
        · rw [if_pos hxz]
        · have he : x.toNat = y.toNat ∧ y.toNat = z.toNat := by omega
          rw [if_neg (by omega), if_neg (by omega)] at h1 h2 ⊢
          exact ih h1 h2

lemma cmpPart_swap : ∀ a b : NKPart, cmpPart b a = (cmpPart a b).swap := by
  intro a b
  cases a with
  | num m =>
    cases b with
    | num n =>
      rw [cmpPart, cmpPart]
      rcases Nat.lt_trichotomy m n with h | h | h
      · rw [if_neg (by omega), if_pos h, if_pos h]
        rfl
      · rw [if_neg (by omega), if_neg (by omega), if_neg (by omega),
          if_neg (by omega)]
        rfl
      · rw [if_pos h, if_neg (by omega), if_pos h]
        rfl
    | txt t => rfl
  | txt s =>
    cases b with
    | num n => rfl
    | txt t => exact cmpChars_swap s t

lemma cmpPart_eq_trans :
    ∀ {a b : NKPart}, cmpPart a b = .eq → ∀ c, cmpPart b c = cmpPart a c := by
  intro a b h c
  cases a with
  | num m =>
    cases b with
    | num n =>
      rw [cmpPart] at h
      have hmn : m = n := by
        by_cases h1 : m < n
        · rw [if_pos h1] at h; cases h
        · by_cases h2 : n < m
          · rw [if_neg h1, if_pos h2] at h; cases h
          · omega
      rw [hmn]
    | txt t => rw [cmpPart] at h; cases h
  | txt s =>
    cases b with
    | num n => rw [cmpPart] at h; cases h
    | txt t =>
      rw [cmpPart] at h
      cases c with
      | num p => rfl
      | txt u =>
        rw [cmpPart, cmpPart]
        exact cmpChars_eq_trans h u

lemma cmpPart_lt_of_lt_of_le :
    ∀ {a b c : NKPart}, cmpPart a b = .lt → cmpPart b c ≠ .gt →
      cmpPart a c = .lt := by
  intro a b c h1 h2
  cases a with
  | num m =>
    cases b with
    | num n =>
      cases c with
      | num p =>
        rw [cmpPart] at h1 h2 ⊢
        have hmn : m < n := by
          by_cases h' : m < n
          · exact h'
          · exfalso
            rw [if_neg h'] at h1
            by_cases h'' : n < m
            · rw [if_pos h''] at h1; cases h1
            · rw [if_neg h''] at h1; cases h1
        have hnp : n ≤ p := by
          by_contra hc
          rw [if_neg (by omega), if_pos (by omega)] at h2
          exact absurd rfl h2
        rw [if_pos (by omega)]
      | txt u => rfl
    | txt t =>
      cases c with
      | num p => rw [cmpPart] at h2; exact absurd rfl h2
      | txt u => rfl
  | txt s =>
    cases b with
    | num n => rw [cmpPart] at h1; cases h1
    | txt t =>
      cases c with
      | num p => rw [cmpPart] at h2; exact absurd rfl h2
      | txt u =>
        rw [cmpPart] at h1 h2 ⊢
        exact cmpChars_lt_of_lt_of_le h1 h2

lemma cmpKey_swap : ∀ a b : List NKPart, cmpKey b a = (cmpKey a b).swap := by
  intro a
  induction a with
  | nil => intro b; cases b <;> rfl
  | cons x s ih =>
    intro b
    cases b with
    | nil => rfl
    | cons y t =>
      rw [cmpKey, cmpKey, cmpPart_swap y x]
      cases h : cmpPart y x with
      | lt => rfl
      | gt => rfl
      | eq => exact ih t

lemma cmpKey_le_trans :
    ∀ {a b c : List NKPart}, cmpKey a b ≠ .gt → cmpKey b c ≠ .gt →
      cmpKey a c ≠ .gt := by
  intro a
  induction a with
  | nil =>
    intro b c _ _
    cases c with
    | nil => rw [cmpKey]; simp
    | cons z u => rw [cmpKey]; simp
  | cons x s ih =>
    intro b c h1 h2
    cases b with
    | nil => rw [cmpKey] at h1; exact absurd rfl h1
    | cons y t =>
      cases c with
      | nil => rw [cmpKey] at h2; exact absurd rfl h2
      | cons z u =>
        rw [cmpKey] at h1 h2 ⊢
        cases hxy : cmpPart x y with
        | gt => rw [hxy] at h1; exact absurd rfl h1
        | lt =>
          rw [hxy] at h1
          have hyz : cmpPart y z ≠ .gt := by
            intro hc
            rw [hc] at h2
            exact absurd rfl h2
          rw [cmpPart_lt_of_lt_of_le hxy hyz]
          simp
        | eq =>
          rw [hxy] at h1
          have he := cmpPart_eq_trans hxy z
          cases hyz : cmpPart y z with
          | gt => rw [hyz] at h2; exact absurd rfl h2
          | lt =>
            rw [hyz] at h2
            rw [← he, hyz]
            simp
          | eq =>
            rw [hyz] at h2
            rw [← he, hyz]
            exact ih h1 h2

lemma natLE_total (a b : String) : (natLE a b || natLE b a) = true := by
  rw [natLE, natLE, cmpKey_swap]
  cases cmpKey (natural_key b) (natural_key a) <;> rfl

lemma natLE_trans (a b c : String) (h1 : natLE a b = true) (h2 : natLE b c = true) :
    natLE a c = true := by
  have h1' : cmpKey (natural_key a) (natural_key b) ≠ Ordering.gt := by
    intro hc
    rw [natLE, hc] at h1
    exact absurd h1 (by decide)
  have h2' : cmpKey (natural_key b) (natural_key c) ≠ Ordering.gt := by
    intro hc
    rw [natLE, hc] at h2
    exact absurd h2 (by decide)
  have h3 := cmpKey_le_trans h1' h2'
  rw [natLE]
  cases hx : cmpKey (natural_key a) (natural_key c) with
  | gt => exact absurd hx h3
  | lt => rfl
  | eq => rfl

lemma natSort_perm (files : List String) : (natSort files).Perm files :=
  stableSort_perm natLE files

lemma natSort_pairwise (files : List String) :
    (natSort files).Pairwise (fun x y => natLE x y = true) :=
  stableSort_pairwise natLE_total (fun a b c => natLE_trans a b c) files

lemma noFail_copyFail (x y : List String) : noFail.copyFail x y = false := rfl

lemma noFail_unlinkFail (x : List String) : noFail.unlinkFail x = false := rfl

lemma noFail_replaceFail (x y : List String) : noFail.replaceFail x y = false := rfl

lemma noFail_renameFail (x y : List String) : noFail.renameFail x y = false := rfl

lemma noFail_mkdirFail (x : List String) : noFail.mkdirFail x = false := rfl

lemma isPrefixOf_self_append (l t : List String) : l.isPrefixOf (l ++ t) = true := by
  induction l with
  | nil => simp [List.isPrefixOf]
  | cons a l ih => simp [List.isPrefixOf, ih]

lemma singleton_append_cancel {p : List String} {x y : String}
    (h : p ++ [x] = p ++ [y]) : x = y := by
  have := List.append_cancel_left h
  injection this

/-- Stage loop of one directory under the no-failure oracle: every file
of the list is copied, in order, to its staged name, producing exactly
the `stagedPairs` mappings, staged entries and `COPIED` log entries. -/
lemma stageLoop_noFail {fs : FS} {cx : NamingCtx} {dirp tmpSub : List String}
    (hg : PreCanon cx.grandfather.data) (hf : PreCanon cx.father.data)
    (hr : PreCanon cx.rootname.data) :
    ∀ {files : List String} {seq : Nat} {tmp : List Entry}
      {maps : List (List String × List String)} {log : List Action},
      (∀ f ∈ files, allowedFile f = true) →
      (∀ e ∈ tmp, ∀ s, seq ≤ s → ∀ ext, (∀ a t, ext = a :: t → a = '.') →
        e.path ≠ tmpSub ++ [newFileName cx s ext]) →
      stageLoop noFail false fs cx dirp tmpSub files seq tmp maps log =
        (tmp ++ (stagedPairs cx dirp tmpSub files seq).map
            (fun m => ⟨m.2, false, fsContent fs m.1⟩),
          maps ++ stagedPairs cx dirp tmpSub files seq,
          log ++ (stagedPairs cx dirp tmpSub files seq).map
            (fun m => Action.copied m.1 m.2)) := by
  intro files
  induction files with
  | nil =>
    intro seq tmp maps log _ _
    simp [stageLoop, stagedPairs]
  | cons f rest ih =>
    intro seq tmp maps log hall htmp
    have hext : ∀ a t, extOf f = a :: t → a = '.' := extOf_dot (hall f (by simp))
    have hnot : fsHas tmp (tmpSub ++ [newFileName cx seq (extOf f)]) = false := by
      cases hb : fsHas tmp (tmpSub ++ [newFileName cx seq (extOf f)]) with
      | false => rfl
      | true =>
        exfalso
        rcases List.any_eq_true.mp hb with ⟨e, he, hbe⟩
        have hpe : e.path = tmpSub ++ [newFileName cx seq (extOf f)] := by
          simpa using hbe
        exact htmp e he seq (Nat.le_refl seq) (extOf f) hext hpe
    have hup : unique_path (fsHas tmp) (tmpSub ++ [newFileName cx seq (extOf f)]) 99 =
        some (tmpSub ++ [newFileName cx seq (extOf f)]) := by
      rw [unique_path, hnot]
      rfl
    rw [stageLoop]
    simp only [Bool.false_eq_true, if_false, hup, noFail_copyFail]
    rw [ih (fun x hx => hall x (by simp [hx])) ?_]
    · simp [stagedPairs, List.append_assoc]
    · intro e he s hs ext hextdot hpe
      rcases List.mem_append.mp he with he' | he'
      · exact htmp e he' s (by omega) ext hextdot hpe
      · have hee : e = ⟨tmpSub ++ [newFileName cx seq (extOf f)], false,
            fsContent fs (dirp ++ [f])⟩ := by simpa using he'
        rw [hee] at hpe
        have hxy : newFileName cx seq (extOf f) = newFileName cx s ext :=
          singleton_append_cancel hpe
        have := (newFileName_inj hg hf hr hext hextdot hxy).1
        omega

/-- Fixture for the sequencing claim: a leaf directory `d` with
`img2.jpg, img10.jpg, img1.jpg` and a second leaf directory `e` (whose
counter must restart at 1). -/
def fsImg : FS :=
  [⟨["d"], true, 0⟩, ⟨["d", "img2.jpg"], false, 21⟩, ⟨["d", "img10.jpg"], false, 22⟩,
   ⟨["d", "img1.jpg"], false, 23⟩, ⟨["e"], true, 0⟩, ⟨["e", "a.jpg"], false, 24⟩]

/-- Expected tree after a real run on `fsImg`: `img1→0001`,
`img2→0002`, `img10→0003` (contents 23, 21, 22), and the second
directory restarts at `0001`. -/
def fsImgExpected : FS :=
  [⟨["d"], true, 0⟩, ⟨["e"], true, 0⟩,
   ⟨["d", "parent_x_nr_d_0001.jpg"], false, 23⟩,
   ⟨["d", "parent_x_nr_d_0002.jpg"], false, 21⟩,
   ⟨["d", "parent_x_nr_d_0003.jpg"], false, 22⟩,
   ⟨["e", "parent_x_nr_e_0001.jpg"], false, 24⟩]

/-- C8: within a leaf directory, the stage loop (run with sequence
counter 1, as `process_files_in_leaf_dirs` invokes it for each
directory) assigns the staged names to the naturally sorted files in
order, producing exactly the `stagedPairs` mappings whose sequence
numbers count 1, 2, 3, … in sorted position; the sort is a permutation
of the files ordered by the natural-key relation (digit runs compared
numerically, text runs lowercased); and concretely `img2.jpg,
img10.jpg, img1.jpg` are sequenced `img1→0001`, `img2→0002`,
`img10→0003` (4-digit zero-padded), the counter restarting at 1 for the
next directory. -/
theorem seq_natural_order :
    (∀ (fs : FS) (cx : NamingCtx) (dirp tmpSub : List String) (files : List String)
      (tmp : List Entry) (log : List Action),
      PreCanon cx.grandfather.data → PreCanon cx.father.data →
      PreCanon cx.rootname.data →
      (∀ f ∈ files, allowedFile f = true) →
      (∀ e ∈ tmp, tmpSub.isPrefixOf e.path = false) →
      (stageLoop noFail false fs cx dirp tmpSub (natSort files) 1 tmp [] log).2.1 =
        stagedPairs cx dirp tmpSub (natSort files) 1) ∧
    (∀ files : List String, (natSort files).Perm files ∧
      (natSort files).Pairwise (fun x y => natLE x y = true)) ∧
    (runPipeline noFail rcW fsImg false).1 = fsImgExpected := by
  refine ⟨?_, fun files => ⟨natSort_perm files, natSort_pairwise files⟩, by decide⟩
  intro fs cx dirp tmpSub files tmp log hg hf hr hall htmp
  rw [stageLoop_noFail hg hf hr ?_ ?_]
  · simp
  · intro f hfmem
    exact hall f ((natSort_perm files).mem_iff.mp hfmem)
  · intro e he s _ ext _ hpe
    have h1 := htmp e he
    rw [hpe, isPrefixOf_self_append] at h1
    cases h1

/-- Witness for C8 at the `fsImg` fixture directory `d`. -/
theorem seq_natural_order_witness :
    (stageLoop noFail false fsImg (ctxOf rcW ["d"]) ["d"] ["_files_", "d"]
        (natSort ["img2.jpg", "img10.jpg", "img1.jpg"]) 1 [] [] []).2.1 =
      stagedPairs (ctxOf rcW ["d"]) ["d"] ["_files_", "d"]
        (natSort ["img2.jpg", "img10.jpg", "img1.jpg"]) 1 :=
  seq_natural_order.1 fsImg (ctxOf rcW ["d"]) ["d"] ["_files_", "d"]
    ["img2.jpg", "img10.jpg", "img1.jpg"] [] []
    (precanon_sanitize "parent") precanon_x (precanon_sanitize "d")
    (by decide) (fun e he => absurd he (by simp))

/-! ## Directory-phase rollback theory

On a prefix-closed tree with no duplicate paths, each performed
directory rename moves a subtree to a previously non-existing sibling
path, so it is undone exactly by the reverse rename; the reverse replay
of the records therefore restores the starting tree whenever the
rollback renames themselves do not fail. -/

lemma fsHas_iff {fs : FS} {p : List String} :
    fsHas fs p = true ↔ ∃ e ∈ fs, e.path = p := by
  rw [fsHas, List.any_eq_true]
  constructor
  · rintro ⟨e, he, hb⟩
    exact ⟨e, he, by simpa using hb⟩
  · rintro ⟨e, he, hb⟩
    exact ⟨e, he, by simpa using hb⟩

lemma isPrefixOf_eq_append : ∀ {l p : List String}, l.isPrefixOf p = true →
    p = l ++ p.drop l.length
  | [], _, _ => rfl
  | a :: l, [], h => by simp [List.isPrefixOf] at h
  | a :: l, b :: q, h => by
    simp only [List.isPrefixOf, Bool.and_eq_true, beq_iff_eq] at h
    rcases h with ⟨hab, h2⟩
    subst hab
    show a :: q = a :: (l ++ q.drop l.length)
    exact congrArg (a :: ·) (isPrefixOf_eq_append h2)

lemma isPrefixOf_length_le {l p : List String} (h : l.isPrefixOf p = true) :
    l.length ≤ p.length := by
  have hll := congrArg List.length (isPrefixOf_eq_append h)
  rw [List.length_append] at hll
  omega

lemma isPrefixOf_eq_of_length_le {l p : List String} (h : l.isPrefixOf p = true)
    (hlen : p.length ≤ l.length) : l = p := by
  have hd := isPrefixOf_eq_append h
  have hll := congrArg List.length hd
  rw [List.length_append] at hll
  have h0 : p.drop l.length = [] := List.eq_nil_of_length_eq_zero (by omega)
  rw [hd, h0, List.append_nil]

lemma isPrefixOf_take {l p : List String} (h : l.isPrefixOf p = true) :
    p.take l.length = l := by
  have hd := isPrefixOf_eq_append h
  have ht := List.take_left l (p.drop l.length)
  rw [← hd] at ht
  exact ht

lemma isPrefixOf_self (l : List String) : l.isPrefixOf l = true := by
  have h := isPrefixOf_self_append l []
  rwa [List.append_nil] at h


lemma ne_true_of_false {b : Bool} (h : b = false) : ¬(b = true) := by
  intro hcon
  rw [h] at hcon
  cases hcon

lemma false_of_ne_true {b : Bool} (h : ¬(b = true)) : b = false := by
  cases hb : b
  · rfl
  · exact absurd hb h

lemma no_prefix_of_not_has {fs : FS} {np : List String} (hC : Closed fs) (hne : np ≠ [])
    (h : fsHas fs np = false) : ∀ e ∈ fs, np.isPrefixOf e.path = false := by
  intro e he
  cases hb : np.isPrefixOf e.path with
  | false => rfl
  | true =>
    exfalso
    by_cases hlen : e.path.length ≤ np.length
    · have hq : np = e.path := isPrefixOf_eq_of_length_le hb hlen
      have hhas : fsHas fs np = true := fsHas_iff.mpr ⟨e, he, hq.symm⟩
      rw [h] at hhas
      cases hhas
    · have h0 : 0 < np.length := List.length_pos.mpr hne
      rcases hC e he np.length (List.mem_range.mpr (by omega)) h0 with ⟨e2, he2, hp2, -⟩
      have hhas : fsHas fs np = true :=
        fsHas_iff.mpr ⟨e2, he2, by rw [hp2, isPrefixOf_take hb]⟩
      rw [h] at hhas
      cases hhas

lemma renameSub_cons (e : Entry) (fs : FS) (old np : List String) :
    renameSub (e :: fs) old np =
      (if old.isPrefixOf e.path then { e with path := np ++ e.path.drop old.length }
        else e) :: renameSub fs old np := rfl

lemma renameSub_roundtrip {d np : List String} :
    ∀ {fs : FS}, (∀ e ∈ fs, np.isPrefixOf e.path = false) →
      renameSub (renameSub fs d np) np d = fs := by
  intro fs
  induction fs with
  | nil => intro _; rfl
  | cons e fs ih =>
    intro hnp
    have hhead := hnp e (List.mem_cons_self e fs)
    have htail : ∀ e2 ∈ fs, np.isPrefixOf e2.path = false :=
      fun e2 h2 => hnp e2 (List.mem_cons_of_mem e h2)
    rw [renameSub_cons, renameSub_cons, ih htail]
    by_cases hd : d.isPrefixOf e.path = true
    · rw [if_pos hd]
      have h1 : np.isPrefixOf ({ e with path := np ++ e.path.drop d.length } : Entry).path
          = true := isPrefixOf_self_append _ _
      rw [if_pos h1]
      show ({ e with path := d ++ (np ++ e.path.drop d.length).drop np.length } : Entry)
          :: fs = e :: fs
      rw [List.drop_left, ← isPrefixOf_eq_append hd]
    · rw [if_neg hd, if_neg (ne_true_of_false hhead)]

lemma mem_renameSub (d np : List String) {fs : FS} {e : Entry} (he : e ∈ fs) :
    (if d.isPrefixOf e.path then { e with path := np ++ e.path.drop d.length } else e)
      ∈ renameSub fs d np :=
  List.mem_map.mpr ⟨e, he, rfl⟩

lemma mem_renameSub_self {fs : FS} {d np : List String} {e : Entry} (he : e ∈ fs)
    (hd : d.isPrefixOf e.path = false) : e ∈ renameSub fs d np := by
  have h := mem_renameSub d np he
  rw [if_neg (ne_true_of_false hd)] at h
  exact h

lemma renameSub_mem_moved (d np : List String) {fs : FS} {e : Entry} (he : e ∈ fs)
    (hd : d.isPrefixOf e.path = true) :
    ∃ e2 ∈ renameSub fs d np, e2.path = np ++ e.path.drop d.length ∧ e2.isDir = e.isDir :=
  ⟨_, mem_renameSub d np he, by rw [if_pos hd], by rw [if_pos hd]⟩

lemma renameSub_mem_inv {fs : FS} {d np : List String} {e2 : Entry}
    (h : e2 ∈ renameSub fs d np) :
    ∃ e ∈ fs, e2.isDir = e.isDir ∧
      ((d.isPrefixOf e.path = true ∧ e2.path = np ++ e.path.drop d.length) ∨
       (d.isPrefixOf e.path = false ∧ e2.path = e.path)) := by
  rcases List.mem_map.mp h with ⟨e, he, rfl⟩
  refine ⟨e, he, ?_, ?_⟩
  · by_cases hd : d.isPrefixOf e.path = true
    · rw [if_pos hd]
    · rw [if_neg hd]
  · by_cases hd : d.isPrefixOf e.path = true
    · exact Or.inl ⟨hd, by rw [if_pos hd]⟩
    · exact Or.inr ⟨false_of_ne_true hd, by rw [if_neg hd]⟩

lemma renameSub_ne {fs : FS} {d np : List String} (hfs : ∀ e ∈ fs, e.path ≠ [])
    (hne : np ≠ []) : ∀ e ∈ renameSub fs d np, e.path ≠ [] := by
  intro e2 he2
  rcases renameSub_mem_inv he2 with ⟨e, he, -, ⟨-, hp⟩ | ⟨-, hp⟩⟩
  · rw [hp]
    intro hcon
    exact hne (List.append_eq_nil.mp hcon).1
  · rw [hp]
    exact hfs e he

lemma renameSub_map_path (fs : FS) (d np : List String) :
    (renameSub fs d np).map Entry.path =
      (fs.map Entry.path).map
        (fun p => if d.isPrefixOf p then np ++ p.drop d.length else p) := by
  induction fs with
  | nil => rfl
  | cons e fs ih =>
    rw [renameSub_cons, List.map_cons, List.map_cons, List.map_cons, ih]
    congr 1
    by_cases hd : d.isPrefixOf e.path = true
    · rw [if_pos hd, if_pos hd]
    · rw [if_neg hd, if_neg hd]

lemma renameSub_nodup {fs : FS} {d np : List String}
    (hnd : (fs.map Entry.path).Nodup)
    (hnp : ∀ e ∈ fs, np.isPrefixOf e.path = false) :
    ((renameSub fs d np).map Entry.path).Nodup := by
  rw [renameSub_map_path]
  refine List.Nodup.map_on ?_ hnd
  intro x hx y hy hxy
  have hxn : np.isPrefixOf x = false := by
    rcases List.mem_map.mp hx with ⟨e, he, rfl⟩
    exact hnp e he
  have hyn : np.isPrefixOf y = false := by
    rcases List.mem_map.mp hy with ⟨e, he, rfl⟩
    exact hnp e he
  by_cases hdx : d.isPrefixOf x = true <;> by_cases hdy : d.isPrefixOf y = true
  · rw [if_pos hdx, if_pos hdy] at hxy
    have h2 : x.drop d.length = y.drop d.length := List.append_cancel_left hxy
    rw [isPrefixOf_eq_append hdx, isPrefixOf_eq_append hdy, h2]
  · exfalso
    rw [if_pos hdx, if_neg hdy] at hxy
    have hcon : np.isPrefixOf y = true := by
      rw [← hxy]
      exact isPrefixOf_self_append _ _
    rw [hyn] at hcon
    cases hcon
  · exfalso
    rw [if_neg hdx, if_pos hdy] at hxy
    have hcon : np.isPrefixOf x = true := by
      rw [hxy]
      exact isPrefixOf_self_append _ _
    rw [hxn] at hcon
    cases hcon
  · rw [if_neg hdx, if_neg hdy] at hxy
    exact hxy

lemma np_take_eq_d_take {d np : List String} (hdl : np.dropLast = d.dropLast)
    (hlen : np.length = d.length) {k : Nat} (hk : k < d.length) :
    np.take k = d.take k := by
  have h1 : np.dropLast.take k = np.take k := by
    rw [List.dropLast_eq_take, List.take_take]
    congr 1
    omega
  have h2 : d.dropLast.take k = d.take k := by
    rw [List.dropLast_eq_take, List.take_take]
    congr 1
    omega
  rw [← h1, ← h2, hdl]

lemma closed_renameSub {fs : FS} {d np : List String} (hC : Closed fs)
    (hlen : np.length = d.length) (hdl : np.dropLast = d.dropLast)
    (hdne : d ≠ []) : Closed (renameSub fs d np) := by
  intro e2 he2 k hk hk0
  rw [List.mem_range] at hk
  rcases renameSub_mem_inv he2 with ⟨e, he, -, ⟨hd, hp⟩ | ⟨hd, hp⟩⟩
  · have hdec := isPrefixOf_eq_append hd
    have hml := congrArg List.length hdec
    rw [List.length_append] at hml
    rw [hp] at hk ⊢
    rw [List.length_append] at hk
    rcases Nat.lt_trichotomy k np.length with hkl | hkl | hkl
    · have hkde : k < e.path.length := by
        have hle := isPrefixOf_length_le hd
        omega
      rcases hC e he k (List.mem_range.mpr hkde) hk0 with ⟨ea, hea, hpa, hda⟩
      have hpa2 : ea.path = d.take k := by
        rw [hpa, hdec, List.take_append_of_le_length (by omega)]
      have hnm : d.isPrefixOf ea.path = false := by
        cases hx : d.isPrefixOf ea.path with
        | false => rfl
        | true =>
          exfalso
          have hxl := isPrefixOf_length_le hx
          rw [hpa2, List.length_take] at hxl
          omega
      refine ⟨ea, mem_renameSub_self hea hnm, ?_, hda⟩
      rw [hpa2, List.take_append_of_le_length (le_of_lt hkl),
        np_take_eq_d_take hdl hlen (by omega)]
    · have hd0 : 0 < d.length := List.length_pos.mpr hdne
      have hdle : d.length < e.path.length := by omega
      rcases hC e he d.length (List.mem_range.mpr hdle) hd0 with ⟨ea, hea, hpa, hda⟩
      have hpa2 : ea.path = d := by
        rw [hpa, isPrefixOf_take hd]
      have hdp : d.isPrefixOf ea.path = true := by
        rw [hpa2]
        exact isPrefixOf_self d
      rcases renameSub_mem_moved d np hea hdp with ⟨eb, heb, hpb, hdb⟩
      refine ⟨eb, heb, ?_, by rw [hdb, hda]⟩
      rw [hpb, hpa2, List.drop_length, List.append_nil, hkl, List.take_left]
    · have hke : d.length + (k - np.length) < e.path.length := by omega
      rcases hC e he (d.length + (k - np.length)) (List.mem_range.mpr hke) (by omega)
        with ⟨ea, hea, hpa, hda⟩
      have hpa2 : ea.path = d ++ (e.path.drop d.length).take (k - np.length) := by
        rw [hpa]
        conv_lhs => rw [hdec]
        rw [List.take_append_eq_append_take, List.take_of_length_le (by omega)]
        have hix : d.length + (k - np.length) - d.length = k - np.length := by omega
        rw [hix]
      have hdp : d.isPrefixOf ea.path = true := by
        rw [hpa2]
        exact isPrefixOf_self_append _ _
      rcases renameSub_mem_moved d np hea hdp with ⟨eb, heb, hpb, hdb⟩
      refine ⟨eb, heb, ?_, by rw [hdb, hda]⟩
      rw [hpb, hpa2, List.drop_left, List.take_append_eq_append_take,
        List.take_of_length_le (show np.length ≤ k from by omega)]
  · rw [hp] at hk ⊢
    rcases hC e he k (List.mem_range.mpr hk) hk0 with ⟨ea, hea, hpa, hda⟩
    have hnm : d.isPrefixOf ea.path = false := by
      cases hx : d.isPrefixOf ea.path with
      | false => rfl
      | true =>
        exfalso
        rw [hpa] at hx
        have hdec := isPrefixOf_eq_append hx
        have hfull : e.path = d ++ ((e.path.take k).drop d.length ++ e.path.drop k) := by
          conv_lhs => rw [← List.take_append_drop k e.path]
          rw [← List.append_assoc, ← hdec]
        have hcon : d.isPrefixOf e.path = true := by
          rw [hfull]
          exact isPrefixOf_self_append _ _
        rw [hd] at hcon
        cases hcon
    exact ⟨ea, mem_renameSub_self hea hnm, hpa, hda⟩

lemma dirs_preserved {fs : FS} {d np d2 : List String}
    (hmem : ∃ e ∈ fs, e.path = d2 ∧ e.isDir = true)
    (hle : d2.length ≤ d.length) (hne : d2 ≠ d) :
    ∃ e ∈ renameSub fs d np, e.path = d2 ∧ e.isDir = true := by
  rcases hmem with ⟨e, he, hpe, hde⟩
  have hnm : d.isPrefixOf e.path = false := by
    cases hx : d.isPrefixOf e.path with
    | false => rfl
    | true =>
      exfalso
      rw [hpe] at hx
      exact hne (isPrefixOf_eq_of_length_le hx (by omega)).symm
  exact ⟨e, mem_renameSub_self he hnm, hpe, hde⟩

lemma rbStep_mk (o : Oracle) (fs : FS) (l : List Action) (d np : List String) :
    rbStep o (fs, l) (d, np) =
      if fsHas fs np then
        if o.renameFail np d then (fs, l ++ [Action.errorRollbackDir np d])
        else (renameSub fs np d, l ++ [Action.rollbackDir np d])
      else (fs, l) := rfl

lemma rbStep_log (o : Oracle) (fs : FS) (l : List Action) (r : List String × List String) :
    rbStep o (fs, l) r = ((rbStep o (fs, []) r).1, l ++ (rbStep o (fs, []) r).2) := by
  rcases r with ⟨d, np⟩
  rw [rbStep_mk, rbStep_mk]
  by_cases h1 : fsHas fs np = true
  · rw [if_pos h1, if_pos h1]
    by_cases h2 : o.renameFail np d = true
    · rw [if_pos h2, if_pos h2]
      rfl
    · rw [if_neg h2, if_neg h2]
      rfl
  · rw [if_neg h1, if_neg h1]
    simp

lemma foldl_rbStep_split (o : Oracle) :
    ∀ (rs : List (List String × List String)) (fs : FS) (l : List Action),
      rs.foldl (rbStep o) (fs, l) =
        ((rs.foldl (rbStep o) (fs, [])).1, l ++ (rs.foldl (rbStep o) (fs, [])).2) := by
  intro rs
  induction rs with
  | nil => intro fs l; simp
  | cons r rs ih =>
    intro fs l
    rw [List.foldl_cons, List.foldl_cons, rbStep_log o fs l r]
    rcases hst : rbStep o (fs, []) r with ⟨fs1, l1⟩
    simp [ih fs1 (l ++ l1), ih fs1 l1, List.append_assoc]

lemma rollbackRenames_extend {o : Oracle} {fs0 fs : FS} {d np : List String}
    {recs : List (List String × List String)}
    (hinv : (∀ r ∈ recs, o.renameFail r.2 r.1 = false) →
      rollbackRenames o fs recs =
        (fs0, recs.reverse.map fun r => Action.rollbackDir r.2 r.1))
    (hHas : fsHas (renameSub fs d np) np = true)
    (hround : renameSub (renameSub fs d np) np d = fs) :
    (∀ r ∈ recs ++ [(d, np)], o.renameFail r.2 r.1 = false) →
      rollbackRenames o (renameSub fs d np) (recs ++ [(d, np)]) =
        (fs0, (recs ++ [(d, np)]).reverse.map fun r => Action.rollbackDir r.2 r.1) := by
  intro hnf
  have hnf1 : o.renameFail np d = false := hnf (d, np) (by simp)
  have hnfrest : ∀ r ∈ recs, o.renameFail r.2 r.1 = false :=
    fun r hr => hnf r (List.mem_append_left _ hr)
  have hrr := hinv hnfrest
  rw [rollbackRenames] at hrr
  rw [rollbackRenames, List.reverse_append, List.reverse_singleton,
    List.singleton_append, List.foldl_cons]
  have hstep : rbStep o (renameSub fs d np, []) (d, np) =
      (fs, [Action.rollbackDir np d]) := by
    rw [rbStep_mk, if_pos hHas, if_neg (ne_true_of_false hnf1), hround]
    rfl
  rw [hstep, foldl_rbStep_split o recs.reverse fs [Action.rollbackDir np d], hrr]
  simp

lemma dirRenames_append (l1 l2 : List Action) :
    dirRenames (l1 ++ l2) = dirRenames l1 ++ dirRenames l2 := by
  rw [dirRenames, dirRenames, dirRenames, List.filterMap_append]

lemma dirRenames_renamed (d np : List String) :
    dirRenames [Action.renamedDir d np] = [(d, np)] := rfl

lemma uniquePathGo_not_ex {ex : List String → Bool} {target : List String} :
    ∀ (fuel i : Nat) (p : List String),
      uniquePathGo ex target i fuel = some p → ex p = false := by
  intro fuel
  induction fuel with
  | zero => intro i p h; simp [uniquePathGo] at h
  | succ fuel ih =>
    intro i p h
    rw [uniquePathGo] at h
    by_cases hb : ex (dupCandidate target i) = true
    · rw [if_pos hb] at h
      exact ih _ _ h
    · rw [if_neg hb] at h
      injection h with h2
      rw [← h2]
      exact false_of_ne_true hb

lemma unique_path_not_ex {ex : List String → Bool} {target p : List String}
    (h : unique_path ex target = some p) : ex p = false := by
  rw [unique_path] at h
  by_cases hb : ex target = true
  · rw [if_pos hb] at h
    exact uniquePathGo_not_ex _ _ _ h
  · rw [if_neg hb] at h
    injection h with h2
    rw [← h2]
    exact false_of_ne_true hb

lemma uniquePathGo_concat {ex : List String → Bool} {t : List String} {x : String} :
    ∀ (fuel i : Nat) (p : List String),
      uniquePathGo ex (t ++ [x]) i fuel = some p → ∃ y, p = t ++ [y] := by
  intro fuel
  induction fuel with
  | zero => intro i p h; simp [uniquePathGo] at h
  | succ fuel ih =>
    intro i p h
    rw [uniquePathGo] at h
    by_cases hb : ex (dupCandidate (t ++ [x]) i) = true
    · rw [if_pos hb] at h
      exact ih _ _ h
    · rw [if_neg hb] at h
      injection h with h2
      refine ⟨String.mk (dupName ((t ++ [x]).getLastD "").data i), ?_⟩
      rw [← h2, dupCandidate, List.dropLast_concat]

lemma unique_path_concat {ex : List String → Bool} {t : List String} {x : String}
    {p : List String} (h : unique_path ex (t ++ [x]) = some p) : ∃ y, p = t ++ [y] := by
  rw [unique_path] at h
  by_cases hb : ex (t ++ [x]) = true
  · rw [if_pos hb] at h
    exact uniquePathGo_concat _ _ _ h
  · rw [if_neg hb] at h
    injection h with h2
    exact ⟨x, h2.symm⟩

lemma step_invariants {fs : FS} {d np : List String}
    (hw : WFS fs) (hnp : fsHas fs np = false)
    (hshape : ∃ y, np = d.dropLast ++ [y]) (hdne : d ≠ [])
    (hdmem : ∃ e ∈ fs, e.path = d ∧ e.isDir = true) :
    WFS (renameSub fs d np) ∧
    fsHas (renameSub fs d np) np = true ∧
    renameSub (renameSub fs d np) np d = fs := by
  rcases hshape with ⟨y, rfl⟩
  have hnpne : d.dropLast ++ [y] ≠ [] := by simp
  have hdl : (d.dropLast ++ [y]).dropLast = d.dropLast := List.dropLast_concat
  have hd0 : 0 < d.length := List.length_pos.mpr hdne
  have hlen : (d.dropLast ++ [y]).length = d.length := by
    rw [List.length_append, List.length_dropLast, List.length_singleton]
    omega
  have hnopref : ∀ e ∈ fs, (d.dropLast ++ [y]).isPrefixOf e.path = false :=
    no_prefix_of_not_has hw.closed hnpne hnp
  refine ⟨⟨renameSub_ne hw.ne hnpne, renameSub_nodup hw.nodup hnopref,
    closed_renameSub hw.closed hlen hdl hdne⟩, ?_, renameSub_roundtrip hnopref⟩
  rcases hdmem with ⟨e, he, hpe, -⟩
  have hdp : d.isPrefixOf e.path = true := by
    rw [hpe]
    exact isPrefixOf_self d
  rcases renameSub_mem_moved d (d.dropLast ++ [y]) he hdp with ⟨e2, he2, hp2, -⟩
  refine fsHas_iff.mpr ⟨e2, he2, ?_⟩
  rw [hp2, hpe, List.drop_length, List.append_nil]

lemma renameDirsGo_cons (o : Oracle) (d : List String) (rest : List (List String))
    (fs : FS) (recs : List (List String × List String)) (log : List Action) :
    renameDirsGo o false (d :: rest) fs recs log =
      if sanitize_name (d.getLastD "") = d.getLastD "" then
        renameDirsGo o false rest fs recs log
      else if fsHas fs (d.dropLast ++ [sanitize_name (d.getLastD "")]) && !false then
        match unique_path (fsHas fs) (d.dropLast ++ [sanitize_name (d.getLastD "")]) with
        | none =>
          .error ((rollbackRenames o fs recs).1,
            log ++ [Action.errorUniqueDir (d.dropLast ++ [sanitize_name (d.getLastD "")])]
              ++ (rollbackRenames o fs recs).2, recs)
        | some np =>
          if o.renameFail d np then
            .error ((rollbackRenames o fs recs).1,
              log ++ [Action.errorRenamingDir d np] ++ (rollbackRenames o fs recs).2, recs)
          else
            renameDirsGo o false rest (renameSub fs d np) (recs ++ [(d, np)])
              (log ++ [Action.renamedDir d np])
      else if o.renameFail d (d.dropLast ++ [sanitize_name (d.getLastD "")]) then
        .error ((rollbackRenames o fs recs).1,
          log ++ [Action.errorRenamingDir d (d.dropLast ++ [sanitize_name (d.getLastD "")])]
            ++ (rollbackRenames o fs recs).2, recs)
      else
        renameDirsGo o false rest
          (renameSub fs d (d.dropLast ++ [sanitize_name (d.getLastD "")]))
          (recs ++ [(d, d.dropLast ++ [sanitize_name (d.getLastD "")])])
          (log ++ [Action.renamedDir d (d.dropLast ++ [sanitize_name (d.getLastD "")])])
    := rfl

lemma renameDirsGo_error (o : Oracle) (fs0 : FS) :
    ∀ (dirs : List (List String)) (fs : FS)
      (recs : List (List String × List String)) (log : List Action),
      WFS fs →
      (∀ d ∈ dirs, d ≠ []) →
      (∀ d ∈ dirs, ∃ e ∈ fs, e.path = d ∧ e.isDir = true) →
      dirs.Pairwise (fun a b => b.length ≤ a.length) →
      dirs.Nodup →
      ((∀ r ∈ recs, o.renameFail r.2 r.1 = false) →
        rollbackRenames o fs recs =
          (fs0, recs.reverse.map fun r => Action.rollbackDir r.2 r.1)) →
      dirRenames log = recs →
      ∀ fsE logE recsE,
        renameDirsGo o false dirs fs recs log = .error (fsE, logE, recsE) →
        (∀ r ∈ recsE, o.renameFail r.2 r.1 = false) →
          fsE = fs0 ∧
          ∃ pre errA, dirRenames pre = recsE ∧
            logE = pre ++ errA ::
              (recsE.reverse.map fun r => Action.rollbackDir r.2 r.1) := by
  intro dirs
  induction dirs with
  | nil =>
    intro fs recs log _ _ _ _ _ _ _ fsE logE recsE herr
    rw [renameDirsGo] at herr
    cases herr
  | cons d rest ih =>
    intro fs recs log hw hne hok hsort hnd hrb hdr fsE logE recsE herr hnf
    have hdne : d ≠ [] := hne d (List.mem_cons_self d rest)
    have hdmem := hok d (List.mem_cons_self d rest)
    have hne2 : ∀ d2 ∈ rest, d2 ≠ [] := fun d2 h2 => hne d2 (List.mem_cons_of_mem d h2)
    have hsorth := (List.pairwise_cons.mp hsort).1
    have hsort2 := (List.pairwise_cons.mp hsort).2
    have hndh := (List.nodup_cons.mp hnd).1
    have hnd2 := (List.nodup_cons.mp hnd).2
    rw [renameDirsGo_cons] at herr
    have herrcase : ∀ errA : Action,
        (rollbackRenames o fs recs).1 = fsE →
        log ++ [errA] ++ (rollbackRenames o fs recs).2 = logE →
        recs = recsE →
        fsE = fs0 ∧ ∃ pre errA2, dirRenames pre = recsE ∧
          logE = pre ++ errA2 ::
            (recsE.reverse.map fun r => Action.rollbackDir r.2 r.1) := by
      intro errA h1 h2 h3
      subst h3
      have hrr := hrb hnf
      constructor
      · rw [← h1, hrr]
      · refine ⟨log, errA, hdr, ?_⟩
        rw [← h2, hrr]
        simp
    have hstep : ∀ np : List String, fsHas fs np = false →
        (∃ y, np = d.dropLast ++ [y]) →
        renameDirsGo o false rest (renameSub fs d np) (recs ++ [(d, np)])
            (log ++ [Action.renamedDir d np]) = .error (fsE, logE, recsE) →
        fsE = fs0 ∧ ∃ pre errA, dirRenames pre = recsE ∧
          logE = pre ++ errA ::
            (recsE.reverse.map fun r => Action.rollbackDir r.2 r.1) := by
      intro np hnph hshape herr2
      obtain ⟨hw2, hhas2, hround2⟩ := step_invariants hw hnph hshape hdne hdmem
      refine ih (renameSub fs d np) (recs ++ [(d, np)])
        (log ++ [Action.renamedDir d np]) hw2 hne2 ?_ hsort2 hnd2
        (rollbackRenames_extend hrb hhas2 hround2) ?_
        fsE logE recsE herr2 hnf
      · intro d2 h2
        refine dirs_preserved (hok d2 (List.mem_cons_of_mem d h2)) (hsorth d2 h2) ?_
        intro hdd
        exact hndh (hdd ▸ h2)
      · rw [dirRenames_append, hdr, dirRenames_renamed]
    by_cases hskip : sanitize_name (d.getLastD "") = d.getLastD ""
    · rw [if_pos hskip] at herr
      exact ih fs recs log hw hne2
        (fun d2 h2 => hok d2 (List.mem_cons_of_mem d h2)) hsort2 hnd2 hrb hdr
        fsE logE recsE herr hnf
    · rw [if_neg hskip] at herr
      split at herr
      next hcol =>
        split at herr
        next hup =>
          simp only [Except.error.injEq, Prod.mk.injEq] at herr
          exact herrcase _ herr.1 herr.2.1 herr.2.2
        next np hup =>
          split at herr
          next hfail =>
            simp only [Except.error.injEq, Prod.mk.injEq] at herr
            exact herrcase _ herr.1 herr.2.1 herr.2.2
          next hfail =>
            exact hstep np (unique_path_not_ex hup) (unique_path_concat hup) herr
      next hcol =>
        split at herr
        next hfail =>
          simp only [Except.error.injEq, Prod.mk.injEq] at herr
          exact herrcase _ herr.1 herr.2.1 herr.2.2
        next hfail =>
          have hx := false_of_ne_true hcol
          exact hstep _ (by simpa using hx) ⟨_, rfl⟩ herr

/-- Fixture for C2: two sibling directories with non-canonical names;
the rename of `B B` is made to fail. -/
def fsC2 : FS :=
  [⟨["A A"], true, 0⟩, ⟨["A A", "x.jpg"], false, 1⟩, ⟨["B B"], true, 0⟩]

/-- Oracle failing exactly the rename of `B B`. -/
def oC2 : Oracle := { noFail with renameFail := fun old _ => old == ["B B"] }

/-- C2: if the k-th directory rename of a real run fails (the collision
resolver exhausted or the rename raising), every previously performed
rename 1..k-1 is replayed in reverse order, each recorded `new` path
renamed back to its `old` path, restoring the tree to its initial state
(stated here under the hypothesis that the rollback renames themselves
do not fail, which the replayed-in-reverse wording of the claim
presupposes); the failure is re-raised as fatal, so the whole pipeline
returns the directory phase's error state and log and no file-phase
operation is ever attempted. -/
theorem dir_rename_failure_rollback (o : Oracle) (rc : RootCtx) (fs0 : FS)
    (hw : WFS fs0) (hdepth : check_max_relative_depth fs0 = true)
    (fsE : FS) (logE : List Action) (recsE : List (List String × List String))
    (herr : rename_directories_safe o fs0 false = .error (fsE, logE, recsE))
    (hnf : ∀ r ∈ recsE, o.renameFail r.2 r.1 = false) :
    fsE = fs0 ∧
    (∃ pre errA, dirRenames pre = recsE ∧
      logE = pre ++ errA :: (recsE.reverse.map fun r => Action.rollbackDir r.2 r.1)) ∧
    runPipeline o rc fs0 false = (fsE, logE) := by
  have htot : ∀ a b : List String,
      (decide (b.length ≤ a.length) || decide (a.length ≤ b.length)) = true := by
    intro a b
    rcases Nat.le_total b.length a.length with h | h
    · simp [h]
    · simp [h]
  have htr : ∀ a b c : List String, decide (b.length ≤ a.length) = true →
      decide (c.length ≤ b.length) = true → decide (c.length ≤ a.length) = true := by
    intro a b c h1 h2
    simp only [decide_eq_true_eq] at h1 h2 ⊢
    omega
  have hgne : ∀ d ∈ gather_dirs_by_depth fs0, d ≠ [] := by
    intro d hd
    have hmem := (stableSort_perm _ _).mem_iff.mp hd
    rcases List.mem_map.mp hmem with ⟨e, he, rfl⟩
    exact hw.ne e (List.mem_of_mem_filter he)
  have hgok : ∀ d ∈ gather_dirs_by_depth fs0, ∃ e ∈ fs0, e.path = d ∧ e.isDir = true := by
    intro d hd
    have hmem := (stableSort_perm _ _).mem_iff.mp hd
    rcases List.mem_map.mp hmem with ⟨e, he, rfl⟩
    exact ⟨e, List.mem_of_mem_filter he, rfl, List.of_mem_filter he⟩
  have hgsort : (gather_dirs_by_depth fs0).Pairwise (fun a b => b.length ≤ a.length) := by
    have hp := stableSort_pairwise htot htr ((fs0.filter Entry.isDir).map Entry.path)
    exact hp.imp fun h => of_decide_eq_true h
  have hgnd : (gather_dirs_by_depth fs0).Nodup := by
    have hsub : ((fs0.filter Entry.isDir).map Entry.path).Sublist (fs0.map Entry.path) :=
      (List.filter_sublist _).map _
    exact ((stableSort_perm _ _).nodup_iff).mpr (hsub.nodup hw.nodup)
  have hmain := renameDirsGo_error o fs0 (gather_dirs_by_depth fs0) fs0 [] []
    hw hgne hgok hgsort hgnd (fun _ => rfl) rfl fsE logE recsE herr hnf
  obtain ⟨h1, h2⟩ := hmain
  refine ⟨h1, h2, ?_⟩
  rw [runPipeline, hdepth, herr]
  simp

/-- Witness for C2: renaming `B B` fails after `A A` was renamed to
`a_a`; the rollback renames `a_a` back and the pipeline returns the
restored tree. -/
theorem dir_rename_failure_rollback_witness :
    fsC2 = fsC2 ∧
    (∃ pre errA, dirRenames pre = [((["A A"] : List String), (["a_a"] : List String))] ∧
      [Action.renamedDir ["A A"] ["a_a"], Action.errorRenamingDir ["B B"] ["b_b"],
        Action.rollbackDir ["a_a"] ["A A"]] = pre ++ errA ::
          ([((["A A"] : List String), (["a_a"] : List String))].reverse.map
            fun r => Action.rollbackDir r.2 r.1)) ∧
    runPipeline oC2 rcW fsC2 false =
      (fsC2, [Action.renamedDir ["A A"] ["a_a"],
        Action.errorRenamingDir ["B B"] ["b_b"], Action.rollbackDir ["a_a"] ["A A"]]) :=
  dir_rename_failure_rollback oC2 rcW fsC2 ⟨by decide, by decide, by decide⟩ (by decide)
    fsC2
    [Action.renamedDir ["A A"] ["a_a"], Action.errorRenamingDir ["B B"] ["b_b"],
      Action.rollbackDir ["a_a"] ["A A"]]
    [((["A A"] : List String), (["a_a"] : List String))] rfl (by decide)

/-! ## Dry-run versus real-run target paths

The dry run mutates nothing and its would-be actions are computable
from the tree alone.  Its logged target paths agree with the real
run's exactly when the real run never hits a collision: the dry run
skips collision resolution (`new_path.exists() and not dry`), so a
colliding directory target diverges (`_dupN` in the real run only),
and with it every file target below it. -/

/-- Target paths named by a log: the destination of each performed or
would-be rename. -/
def targetPaths (log : List Action) : List (List String) :=
  log.filterMap fun a =>
    match a with
    | .renamedDir _ np => some np
    | .wouldRenameDir _ np => some np
    | .renamedFile _ fin => some fin
    | .wouldMove _ fin => some fin
    | _ => none

/-- Directory targets of a gathered directory list, as both modes
compute them from the names alone. -/
def dirTargets : List (List String) → List (List String)
  | [] => []
  | d :: rest =>
    if sanitize_name (d.getLastD "") = d.getLastD "" then dirTargets rest
    else (d.dropLast ++ [sanitize_name (d.getLastD "")]) :: dirTargets rest

/-- Log of a dry directory phase. -/
def dryDirLog : List (List String) → List Action
  | [] => []
  | d :: rest =>
    if sanitize_name (d.getLastD "") = d.getLastD "" then dryDirLog rest
    else Action.wouldRenameDir d (d.dropLast ++ [sanitize_name (d.getLastD "")]) ::
      dryDirLog rest

/-- Collision-freedom of the real directory phase: no computed target
exists at the moment its rename happens. -/
def dirPhaseCollisionFree : FS → List (List String) → Bool
  | _, [] => true
  | fs, d :: rest =>
    if sanitize_name (d.getLastD "") = d.getLastD "" then dirPhaseCollisionFree fs rest
    else
      !(fsHas fs (d.dropLast ++ [sanitize_name (d.getLastD "")])) &&
        dirPhaseCollisionFree
          (renameSub fs d (d.dropLast ++ [sanitize_name (d.getLastD "")])) rest

/-- Fixture for the dry/real divergence: directory `A` sanitizes to
`a`, which already exists as a sibling. -/
def fs4 : FS := [⟨["A"], true, 0⟩, ⟨["A", "f.jpg"], false, 1⟩, ⟨["a"], true, 0⟩]

lemma targetPaths_nil : targetPaths [] = [] := rfl

lemma targetPaths_append (l1 l2 : List Action) :
    targetPaths (l1 ++ l2) = targetPaths l1 ++ targetPaths l2 := by
  rw [targetPaths, targetPaths, targetPaths, List.filterMap_append]

lemma targetPaths_renamedDir (a np : List String) (l : List Action) :
    targetPaths (Action.renamedDir a np :: l) = np :: targetPaths l := rfl

lemma targetPaths_wouldRenameDir (a np : List String) (l : List Action) :
    targetPaths (Action.wouldRenameDir a np :: l) = np :: targetPaths l := rfl

lemma targetPaths_renamedFile (a fin : List String) (l : List Action) :
    targetPaths (Action.renamedFile a fin :: l) = fin :: targetPaths l := rfl

lemma targetPaths_wouldMove (a fin : List String) (l : List Action) :
    targetPaths (Action.wouldMove a fin :: l) = fin :: targetPaths l := rfl

lemma targetPaths_wouldCreateTmp (p : List String) (l : List Action) :
    targetPaths (Action.wouldCreateTmp p :: l) = targetPaths l := rfl

lemma targetPaths_dryDirLog :
    ∀ dirs : List (List String), targetPaths (dryDirLog dirs) = dirTargets dirs := by
  intro dirs
  induction dirs with
  | nil => rfl
  | cons d rest ih =>
    rw [dryDirLog, dirTargets]
    by_cases hskip : sanitize_name (d.getLastD "") = d.getLastD ""
    · rw [if_pos hskip, if_pos hskip, ih]
    · rw [if_neg hskip, if_neg hskip, targetPaths_wouldRenameDir, ih]

/-- Unfolding of the dry directory-phase step. -/
lemma renameDirsGo_cons_dry (o : Oracle) (d : List String) (rest : List (List String))
    (fs : FS) (recs : List (List String × List String)) (log : List Action) :
    renameDirsGo o true (d :: rest) fs recs log =
      if sanitize_name (d.getLastD "") = d.getLastD "" then
        renameDirsGo o true rest fs recs log
      else if fsHas fs (d.dropLast ++ [sanitize_name (d.getLastD "")]) && !true then
        match unique_path (fsHas fs) (d.dropLast ++ [sanitize_name (d.getLastD "")]) with
        | none =>
          .error ((rollbackRenames o fs recs).1,
            log ++ [Action.errorUniqueDir (d.dropLast ++ [sanitize_name (d.getLastD "")])]
              ++ (rollbackRenames o fs recs).2, recs)
        | some np =>
          if o.renameFail d np then
            .error ((rollbackRenames o fs recs).1,
              log ++ [Action.errorRenamingDir d np] ++ (rollbackRenames o fs recs).2, recs)
          else
            renameDirsGo o true rest (renameSub fs d np) (recs ++ [(d, np)])
              (log ++ [Action.renamedDir d np])
      else
        renameDirsGo o true rest fs recs
          (log ++ [Action.wouldRenameDir d (d.dropLast ++ [sanitize_name (d.getLastD "")])])
    := rfl

lemma renameDirsGo_dry (o : Oracle) :
    ∀ (dirs : List (List String)) (fs : FS)
      (recs : List (List String × List String)) (log : List Action),
      renameDirsGo o true dirs fs recs log = .ok (fs, recs, log ++ dryDirLog dirs) := by
  intro dirs
  induction dirs with
  | nil =>
    intro fs recs log
    rw [renameDirsGo, dryDirLog, List.append_nil]
  | cons d rest ih =>
    intro fs recs log
    rw [renameDirsGo_cons_dry, dryDirLog]
    by_cases hskip : sanitize_name (d.getLastD "") = d.getLastD ""
    · rw [if_pos hskip, if_pos hskip, ih]
    · rw [if_neg hskip, if_neg hskip,
        if_neg (ne_true_of_false (by simp)), ih]
      simp [List.append_assoc]

lemma renameDirsGo_cf :
    ∀ (dirs : List (List String)) (fs : FS)
      (recs : List (List String × List String)) (log : List Action),
      dirPhaseCollisionFree fs dirs = true →
      ∃ fs2 recs2 rlog,
        renameDirsGo noFail false dirs fs recs log = .ok (fs2, recs2, log ++ rlog) ∧
        targetPaths rlog = dirTargets dirs := by
  intro dirs
  induction dirs with
  | nil =>
    intro fs recs log _
    exact ⟨fs, recs, [], by rw [renameDirsGo, List.append_nil], rfl⟩
  | cons d rest ih =>
    intro fs recs log hcf
    rw [dirPhaseCollisionFree] at hcf
    rw [renameDirsGo_cons]
    by_cases hskip : sanitize_name (d.getLastD "") = d.getLastD ""
    · rw [if_pos hskip] at hcf ⊢
      rcases ih fs recs log hcf with ⟨fs2, recs2, rlog, heq, htp⟩
      refine ⟨fs2, recs2, rlog, heq, ?_⟩
      rw [dirTargets, if_pos hskip, htp]
    · rw [if_neg hskip] at hcf ⊢
      rcases (Bool.and_eq_true _ _).mp hcf with ⟨hfh, hcf2⟩
      have hfs : fsHas fs (d.dropLast ++ [sanitize_name (d.getLastD "")]) = false := by
        cases hx : fsHas fs (d.dropLast ++ [sanitize_name (d.getLastD "")]) with
        | false => rfl
        | true => rw [hx] at hfh; cases hfh
      rw [if_neg (ne_true_of_false (by rw [hfs]; rfl)), noFail_renameFail]
      simp only [Bool.false_eq_true, if_false]
      rcases ih (renameSub fs d (d.dropLast ++ [sanitize_name (d.getLastD "")]))
        (recs ++ [(d, d.dropLast ++ [sanitize_name (d.getLastD "")])])
        (log ++ [Action.renamedDir d (d.dropLast ++ [sanitize_name (d.getLastD "")])])
        hcf2 with ⟨fs2, recs2, rlog, heq, htp⟩
      refine ⟨fs2, recs2,
        Action.renamedDir d (d.dropLast ++ [sanitize_name (d.getLastD "")]) :: rlog,
        ?_, ?_⟩
      · rw [heq]
        simp [List.append_assoc]
      · rw [targetPaths_renamedDir, htp, dirTargets, if_neg hskip]

/-- Unfolding of the dry stage-loop step. -/
lemma stageLoop_dry_cons (o : Oracle) (fs : FS) (cx : NamingCtx)
    (dirp tmpSub : List String) (f : String) (rest : List String) (seq : Nat)
    (tmp : List Entry) (maps : List (List String × List String)) (log : List Action) :
    stageLoop o true fs cx dirp tmpSub (f :: rest) seq tmp maps log =
      stageLoop o true fs cx dirp tmpSub rest (seq + 1) tmp
        (maps ++ [(dirp ++ [f], tmpSub ++ [newFileName cx seq (extOf f)])])
        (log ++ [Action.wouldCopy (dirp ++ [f]) (tmpSub ++ [newFileName cx seq (extOf f)])])
    := rfl

lemma stageLoop_dry (o : Oracle) (fs : FS) (cx : NamingCtx) (dirp tmpSub : List String) :
    ∀ (files : List String) (seq : Nat) (tmp : List Entry)
      (maps : List (List String × List String)) (log : List Action),
      stageLoop o true fs cx dirp tmpSub files seq tmp maps log =
        (tmp, maps ++ stagedPairs cx dirp tmpSub files seq,
          log ++ (stagedPairs cx dirp tmpSub files seq).map
            fun m => Action.wouldCopy m.1 m.2) := by
  intro files
  induction files with
  | nil =>
    intro seq tmp maps log
    rw [stageLoop, stagedPairs]
    simp
  | cons f rest ih =>
    intro seq tmp maps log
    rw [stageLoop_dry_cons, ih, stagedPairs]
    simp [List.append_assoc]

/-- Unfolding of the dry commit-loop step. -/
lemma commitLoop_dry_cons (o : Oracle) (oldPath tmpFile : List String)
    (rest : List (List String × List String)) (fs : FS) (tmp : List Entry)
    (log : List Action) :
    commitLoop o true ((oldPath, tmpFile) :: rest) fs tmp log =
      commitLoop o true rest fs tmp
        (log ++ [Action.wouldMove tmpFile (oldPath.dropLast ++ [tmpFile.getLastD ""])])
    := rfl

lemma commitLoop_dry (o : Oracle) :
    ∀ (maps : List (List String × List String)) (fs : FS) (tmp : List Entry)
      (log : List Action),
      commitLoop o true maps fs tmp log =
        (fs, tmp, log ++ maps.map
          fun m => Action.wouldMove m.2 (m.1.dropLast ++ [m.2.getLastD ""])) := by
  intro maps
  induction maps with
  | nil =>
    intro fs tmp log
    rw [commitLoop]
    simp
  | cons q rest ih =>
    rcases q with ⟨oldPath, tmpFile⟩
    intro fs tmp log
    rw [commitLoop_dry_cons, ih]
    simp [List.append_assoc]

/-- Unfolding of the dry per-directory processing (the staging-area
creation cannot fail in a dry run). -/
lemma processDir_true (o : Oracle) (rc : RootCtx) (fs : FS) (tmp : List Entry)
    (dirp : List String) (log : List Action) :
    processDir o true rc fs tmp dirp log =
      if ((filesIn fs dirp).filter allowedFile).isEmpty then (fs, tmp, log)
      else
        commitLoop o true
          (stageLoop o true fs (ctxOf rc dirp) dirp ("_files_" :: dirp)
            (natSort ((filesIn fs dirp).filter allowedFile)) 1 tmp []
            (log ++ [Action.wouldCreateTmp ("_files_" :: dirp)])).2.1
          fs
          (stageLoop o true fs (ctxOf rc dirp) dirp ("_files_" :: dirp)
            (natSort ((filesIn fs dirp).filter allowedFile)) 1 tmp []
            (log ++ [Action.wouldCreateTmp ("_files_" :: dirp)])).1
          (stageLoop o true fs (ctxOf rc dirp) dirp ("_files_" :: dirp)
            (natSort ((filesIn fs dirp).filter allowedFile)) 1 tmp []
            (log ++ [Action.wouldCreateTmp ("_files_" :: dirp)])).2.2
    := rfl

/-- Unfolding of the real per-directory processing. -/
lemma processDir_false (o : Oracle) (rc : RootCtx) (fs : FS) (tmp : List Entry)
    (dirp : List String) (log : List Action) :
    processDir o false rc fs tmp dirp log =
      if ((filesIn fs dirp).filter allowedFile).isEmpty then (fs, tmp, log)
      else if o.mkdirFail ("_files_" :: dirp) then
        (fs, tmp, log ++ [Action.errorCreateTmp ("_files_" :: dirp)])
      else
        commitLoop o false
          (stageLoop o false fs (ctxOf rc dirp) dirp ("_files_" :: dirp)
            (natSort ((filesIn fs dirp).filter allowedFile)) 1 tmp [] (log ++ [])).2.1
          fs
          (stageLoop o false fs (ctxOf rc dirp) dirp ("_files_" :: dirp)
            (natSort ((filesIn fs dirp).filter allowedFile)) 1 tmp [] (log ++ [])).1
          (stageLoop o false fs (ctxOf rc dirp) dirp ("_files_" :: dirp)
            (natSort ((filesIn fs dirp).filter allowedFile)) 1 tmp [] (log ++ [])).2.2
    := rfl

lemma processDir_dry_ex (o : Oracle) (rc : RootCtx) (fs : FS) (tmp : List Entry)
    (dirp : List String) (log : List Action) :
    ∃ l2, processDir o true rc fs tmp dirp log = (fs, tmp, log ++ l2) := by
  rw [processDir_true]
  by_cases hemp : (((filesIn fs dirp).filter allowedFile).isEmpty) = true
  · rw [if_pos hemp]
    exact ⟨[], by simp⟩
  · rw [if_neg hemp, stageLoop_dry, commitLoop_dry]
    refine ⟨Action.wouldCreateTmp ("_files_" :: dirp) ::
      (((stagedPairs (ctxOf rc dirp) dirp ("_files_" :: dirp)
          (natSort ((filesIn fs dirp).filter allowedFile)) 1).map
        fun m => Action.wouldCopy m.1 m.2) ++
      ((stagedPairs (ctxOf rc dirp) dirp ("_files_" :: dirp)
          (natSort ((filesIn fs dirp).filter allowedFile)) 1).map
        fun m => Action.wouldMove m.2 (m.1.dropLast ++ [m.2.getLastD ""]))), ?_⟩
    simp [List.append_assoc]

lemma filePhaseGo_dry_ex (o : Oracle) (rc : RootCtx) :
    ∀ (dirs : List (List String)) (fs : FS) (tmp : List Entry) (log : List Action),
      ∃ l2, filePhaseGo o true rc dirs fs tmp log = (fs, tmp, log ++ l2) := by
  intro dirs
  induction dirs with
  | nil =>
    intro fs tmp log
    exact ⟨[], by rw [filePhaseGo]; simp⟩
  | cons d rest ih =>
    intro fs tmp log
    rcases processDir_dry_ex o rc fs tmp d log with ⟨l1, hp⟩
    rcases ih fs tmp (log ++ l1) with ⟨l2, hr⟩
    refine ⟨l1 ++ l2, ?_⟩
    rw [filePhaseGo, hp, hr]
    simp [List.append_assoc]

lemma runPipeline_ok_case (o : Oracle) (rc : RootCtx) (fs : FS) (dry : Bool)
    {fs1 : FS} {recs1 : List (List String × List String)} {log1 : List Action}
    (h : rename_directories_safe o fs dry = .ok (fs1, recs1, log1))
    (hc : check_max_relative_depth fs = true) :
    runPipeline o rc fs dry =
      ((process_files_in_leaf_dirs o dry rc fs1).1,
        log1 ++ (process_files_in_leaf_dirs o dry rc fs1).2.2) := by
  rw [runPipeline, hc]
  simp only [Bool.not_true, Bool.false_eq_true, if_false]
  rw [h]

lemma runPipeline_dry_fst (o : Oracle) (rc : RootCtx) (fs : FS) :
    (runPipeline o rc fs true).1 = fs := by
  cases hc : check_max_relative_depth fs with
  | false => rw [runPipeline, hc]; rfl
  | true =>
    have hdirs : rename_directories_safe o fs true =
        .ok (fs, [], [] ++ dryDirLog (gather_dirs_by_depth fs)) :=
      renameDirsGo_dry o (gather_dirs_by_depth fs) fs [] []
    rw [runPipeline_ok_case o rc fs true hdirs hc]
    rcases filePhaseGo_dry_ex o rc (walkDirs fs) fs [] [] with ⟨l2, hfp⟩
    rw [process_files_in_leaf_dirs, hfp]

lemma precanon_ctxOfRev (rc : RootCtx) : ∀ l : List String,
    PreCanon (ctxOfRev rc l).grandfather.data ∧ PreCanon (ctxOfRev rc l).father.data ∧
      PreCanon (ctxOfRev rc l).rootname.data := by
  intro l
  match l with
  | [] =>
    exact ⟨precanon_sanitize rc.grandName, precanon_sanitize rc.parentName,
      precanon_sanitize rc.name⟩
  | [a] => exact ⟨precanon_sanitize rc.parentName, precanon_x, precanon_sanitize a⟩
  | [b, a] => exact ⟨precanon_x, precanon_sanitize a, precanon_sanitize b⟩
  | b :: a :: g :: t =>
    exact ⟨precanon_sanitize g, precanon_sanitize a, precanon_sanitize b⟩

lemma precanon_ctx (rc : RootCtx) (dirp : List String) :
    PreCanon (ctxOf rc dirp).grandfather.data ∧ PreCanon (ctxOf rc dirp).father.data ∧
      PreCanon (ctxOf rc dirp).rootname.data :=
  precanon_ctxOfRev rc dirp.reverse

lemma fsHas_unlinkAt_ne {p q : List String} (h : p ≠ q) :
    ∀ fs : FS, fsHas (unlinkAt fs q) p = fsHas fs p := by
  intro fs
  induction fs with
  | nil => rfl
  | cons e fs ih =>
    by_cases heq : e.path = q
    · have hbp : (e.path == p) = false := by
        rw [heq]
        exact beq_eq_false_iff_ne.mpr fun hc => h hc.symm
      have h1 : unlinkAt (e :: fs) q = unlinkAt fs q := by
        rw [unlinkAt, unlinkAt, List.filter_cons,
          if_neg (ne_true_of_false (by simp [heq]))]
      rw [h1, ih]
      show fsHas fs p = ((e :: fs).any fun x => x.path == p)
      rw [List.any_cons, hbp, Bool.false_or]
      rfl
    · have h1 : unlinkAt (e :: fs) q = e :: unlinkAt fs q := by
        rw [unlinkAt, unlinkAt, List.filter_cons, if_pos (by simp [heq])]
      rw [h1]
      show ((e :: unlinkAt fs q).any fun x => x.path == p) =
        ((e :: fs).any fun x => x.path == p)
      rw [List.any_cons, List.any_cons]
      have h2 : (unlinkAt fs q).any (fun x => x.path == p) =
          fs.any fun x => x.path == p := ih
      rw [h2]

lemma fsHas_staged (fs : FS) (prs : List (List String × List String)) :
    ∀ m ∈ prs,
      fsHas (prs.map fun m => (⟨m.2, false, fsContent fs m.1⟩ : Entry)) m.2 = true :=
  fun m hm => fsHas_iff.mpr ⟨_, List.mem_map.mpr ⟨m, hm, rfl⟩, rfl⟩

lemma stagedPairs_snd_mem {cx : NamingCtx} {dirp tmpSub : List String} :
    ∀ {files : List String} {s : Nat} {q : List String × List String},
      q ∈ stagedPairs cx dirp tmpSub files s →
      ∃ f2 s2, f2 ∈ files ∧ s ≤ s2 ∧ q.2 = tmpSub ++ [newFileName cx s2 (extOf f2)] := by
  intro files
  induction files with
  | nil => intro s q hq; rw [stagedPairs] at hq; cases hq
  | cons f rest ih =>
    intro s q hq
    rw [stagedPairs] at hq
    rcases List.mem_cons.mp hq with hq | hq
    · exact ⟨f, s, List.mem_cons_self f rest, Nat.le_refl s, by rw [hq]⟩
    · rcases ih hq with ⟨f2, s2, hmem, hle, heq⟩
      exact ⟨f2, s2, List.mem_cons_of_mem f hmem, by omega, heq⟩

lemma stagedPairs_snd_nodup {cx : NamingCtx} (hg : PreCanon cx.grandfather.data)
    (hf : PreCanon cx.father.data) (hr : PreCanon cx.rootname.data)
    {dirp tmpSub : List String} :
    ∀ {files : List String} {s : Nat}, (∀ f ∈ files, allowedFile f = true) →
      ((stagedPairs cx dirp tmpSub files s).map Prod.snd).Nodup := by
  intro files
  induction files with
  | nil => intro s _; rw [stagedPairs]; exact List.nodup_nil
  | cons f rest ih =>
    intro s hall
    rw [stagedPairs, List.map_cons, List.nodup_cons]
    refine ⟨?_, ih fun f2 h2 => hall f2 (List.mem_cons_of_mem f h2)⟩
    intro hmem
    rcases List.mem_map.mp hmem with ⟨q, hq, hqe⟩
    rcases stagedPairs_snd_mem hq with ⟨f2, s2, hf2, hle, heq⟩
    rw [heq] at hqe
    have hxy : newFileName cx s2 (extOf f2) = newFileName cx s (extOf f) :=
      singleton_append_cancel hqe
    have hd2 : ∀ a t, extOf f2 = a :: t → a = '.' :=
      extOf_dot (hall f2 (List.mem_cons_of_mem f hf2))
    have hd1 : ∀ a t, extOf f = a :: t → a = '.' :=
      extOf_dot (hall f (List.mem_cons_self f rest))
    have hseq := (newFileName_inj hg hf hr hd2 hd1 hxy).1
    omega

lemma targetPaths_map_copied (prs : List (List String × List String)) :
    targetPaths (prs.map fun m => Action.copied m.1 m.2) = [] := by
  induction prs with
  | nil => rfl
  | cons q rest ih =>
    rw [List.map_cons,
      show targetPaths (Action.copied q.1 q.2 ::
          rest.map fun m => Action.copied m.1 m.2) =
        targetPaths (rest.map fun m => Action.copied m.1 m.2) from rfl, ih]

lemma targetPaths_map_wouldCopy (prs : List (List String × List String)) :
    targetPaths (prs.map fun m => Action.wouldCopy m.1 m.2) = [] := by
  induction prs with
  | nil => rfl
  | cons q rest ih =>
    rw [List.map_cons,
      show targetPaths (Action.wouldCopy q.1 q.2 ::
          rest.map fun m => Action.wouldCopy m.1 m.2) =
        targetPaths (rest.map fun m => Action.wouldCopy m.1 m.2) from rfl, ih]

lemma targetPaths_map_wouldMove (prs : List (List String × List String)) :
    targetPaths (prs.map fun m => Action.wouldMove m.2 (m.1.dropLast ++ [m.2.getLastD ""]))
      = prs.map fun m => m.1.dropLast ++ [m.2.getLastD ""] := by
  induction prs with
  | nil => rfl
  | cons q rest ih =>
    rw [List.map_cons, targetPaths_wouldMove, ih, List.map_cons]

/-- Real commit loop under `noFail`: every mapping's staged file is
moved to the final target beside its original, and those targets are
exactly what the log names. -/
lemma commitLoop_noFail_targets :
    ∀ (maps : List (List String × List String)) (fs : FS) (tmp : List Entry)
      (log : List Action),
      (∀ m ∈ maps, fsHas tmp m.2 = true) →
      ((maps.map Prod.snd).Nodup) →
      ∃ fs2 tmp2 clog,
        commitLoop noFail false maps fs tmp log = (fs2, tmp2, log ++ clog) ∧
        targetPaths clog = maps.map fun m => m.1.dropLast ++ [m.2.getLastD ""] := by
  intro maps
  induction maps with
  | nil =>
    intro fs tmp log _ _
    exact ⟨fs, tmp, [], by rw [commitLoop]; simp, rfl⟩
  | cons q rest ih =>
    rcases q with ⟨oldPath, tmpFile⟩
    intro fs tmp log hhas hnd
    have hh : fsHas tmp tmpFile = true := hhas (oldPath, tmpFile) (List.mem_cons_self _ _)
    rw [List.map_cons, List.nodup_cons] at hnd
    have hhas2 : ∀ m ∈ rest, fsHas (unlinkAt tmp tmpFile) m.2 = true := by
      intro m hm
      have hne : m.2 ≠ tmpFile := by
        intro hc
        exact hnd.1 (hc ▸ List.mem_map.mpr ⟨m, hm, rfl⟩)
      rw [fsHas_unlinkAt_ne hne]
      exact hhas m (List.mem_cons_of_mem _ hm)
    rw [commitLoop]
    simp only [noFail_unlinkFail, noFail_replaceFail, Bool.and_false, Bool.false_eq_true,
      if_false, hh, Bool.not_true, Bool.or_false]
    rcases ih
      (unlinkAt (if fsHas (if fsHas fs oldPath then unlinkAt fs oldPath else fs)
          (oldPath.dropLast ++ [tmpFile.getLastD ""]) = true then
          unlinkAt (if fsHas fs oldPath then unlinkAt fs oldPath else fs)
            (oldPath.dropLast ++ [tmpFile.getLastD ""])
        else if fsHas fs oldPath then unlinkAt fs oldPath else fs)
        (oldPath.dropLast ++ [tmpFile.getLastD ""]) ++
        [⟨oldPath.dropLast ++ [tmpFile.getLastD ""], false, fsContent tmp tmpFile⟩])
      (unlinkAt tmp tmpFile)
      ((log ++ (if fsHas fs oldPath then [Action.deletedOriginal oldPath] else [])) ++
        [Action.renamedFile oldPath (oldPath.dropLast ++ [tmpFile.getLastD ""])])
      hhas2 hnd.2 with ⟨fs2, tmp2, clog, heq, htp⟩
    refine ⟨fs2, tmp2,
      (if fsHas fs oldPath then [Action.deletedOriginal oldPath] else []) ++
        Action.renamedFile oldPath (oldPath.dropLast ++ [tmpFile.getLastD ""]) :: clog,
      ?_, ?_⟩
    · rw [heq]
      simp [List.append_assoc]
    · rw [targetPaths_append, targetPaths_renamedFile, htp]
      by_cases hold : fsHas fs oldPath = true
      · rw [if_pos hold]
        rfl
      · rw [if_neg hold]
        rfl

/-- Real per-directory processing under `noFail`: the logged file
targets are the final names beside each original. -/
lemma processDir_noFail_targets (rc : RootCtx) (fs : FS) (dirp : List String) :
    targetPaths ((processDir noFail false rc fs [] dirp []).2.2) =
      (stagedPairs (ctxOf rc dirp) dirp ("_files_" :: dirp)
        (natSort ((filesIn fs dirp).filter allowedFile)) 1).map
        fun m => m.1.dropLast ++ [m.2.getLastD ""] := by
  rcases precanon_ctx rc dirp with ⟨hg, hf, hr⟩
  rw [processDir_false]
  by_cases hemp : (((filesIn fs dirp).filter allowedFile).isEmpty) = true
  · rw [if_pos hemp, List.isEmpty_iff.mp hemp]
    rfl
  · have hall : ∀ f ∈ natSort ((filesIn fs dirp).filter allowedFile),
        allowedFile f = true := by
      intro f hfm
      exact List.of_mem_filter ((natSort_perm _).mem_iff.mp hfm)
    rw [if_neg hemp, if_neg (ne_true_of_false (noFail_mkdirFail _)),
      stageLoop_noFail hg hf hr hall (fun e he => absurd he (by simp))]
    rcases commitLoop_noFail_targets
      ([] ++ stagedPairs (ctxOf rc dirp) dirp ("_files_" :: dirp)
        (natSort ((filesIn fs dirp).filter allowedFile)) 1)
      fs
      ([] ++ (stagedPairs (ctxOf rc dirp) dirp ("_files_" :: dirp)
        (natSort ((filesIn fs dirp).filter allowedFile)) 1).map
          fun m => (⟨m.2, false, fsContent fs m.1⟩ : Entry))
      (([] ++ []) ++ (stagedPairs (ctxOf rc dirp) dirp ("_files_" :: dirp)
          (natSort ((filesIn fs dirp).filter allowedFile)) 1).map
          fun m => Action.copied m.1 m.2)
      (by
        intro m hm
        rw [List.nil_append]
        exact fsHas_staged fs _ m (by simpa using hm))
      (by
        rw [List.nil_append]
        exact stagedPairs_snd_nodup hg hf hr hall)
      with ⟨fs2, tmp2, clog, heq, htp⟩
    rw [heq]
    show targetPaths ((([] ++ []) ++ (stagedPairs (ctxOf rc dirp) dirp ("_files_" :: dirp)
        (natSort ((filesIn fs dirp).filter allowedFile)) 1).map
        (fun m => Action.copied m.1 m.2)) ++ clog) = _
    rw [targetPaths_append, targetPaths_append, targetPaths_map_copied, htp]
    simp [targetPaths_nil]

/-- Dry per-directory processing: the logged would-move targets. -/
lemma processDir_dry_targets (rc : RootCtx) (fs : FS) (dirp : List String) :
    targetPaths ((processDir noFail true rc fs [] dirp []).2.2) =
      (stagedPairs (ctxOf rc dirp) dirp ("_files_" :: dirp)
        (natSort ((filesIn fs dirp).filter allowedFile)) 1).map
        fun m => m.1.dropLast ++ [m.2.getLastD ""] := by
  rw [processDir_true]
  by_cases hemp : (((filesIn fs dirp).filter allowedFile).isEmpty) = true
  · rw [if_pos hemp, List.isEmpty_iff.mp hemp]
    rfl
  · rw [if_neg hemp, stageLoop_dry, commitLoop_dry]
    show targetPaths (((([] : List Action) ++
        [Action.wouldCreateTmp ("_files_" :: dirp)]) ++
        (stagedPairs (ctxOf rc dirp) dirp ("_files_" :: dirp)
          (natSort ((filesIn fs dirp).filter allowedFile)) 1).map
          (fun m => Action.wouldCopy m.1 m.2)) ++
        (([] : List (List String × List String)) ++
          stagedPairs (ctxOf rc dirp) dirp ("_files_" :: dirp)
          (natSort ((filesIn fs dirp).filter allowedFile)) 1).map
          (fun m => Action.wouldMove m.2 (m.1.dropLast ++ [m.2.getLastD ""]))) = _
    rw [targetPaths_append, targetPaths_append, targetPaths_append,
      targetPaths_map_wouldCopy, targetPaths_map_wouldMove, targetPaths_wouldCreateTmp]
    simp [targetPaths_nil]

/-- C4 counterexample: on a tree where directory `A` sanitizes to the
name of its existing sibling `a`, the dry run logs target `a` while the
real run resolves the collision to `a_dup1` and renames the file inside
accordingly — the two logs name different target paths. -/
theorem dry_real_targets_differ :
    targetPaths (runPipeline noFail rcW fs4 true).2 ≠
      targetPaths (runPipeline noFail rcW fs4 false).2 := by
  decide

/-- C4 amended: (a) a dry run performs no mutation whatever the oracle;
(b) when the real directory phase never hits a collision, the dry and
real runs compute the same directory target paths; (c) for each
directory batch processed from the same tree with an empty staging
area, the dry and real file-phase logs name the same target paths.
Without the collision-freedom hypothesis the equality fails, as the
counterexample shows: the dry run skips collision resolution. -/
theorem dry_real_target_paths :
    (∀ (o : Oracle) (rc : RootCtx) (fs : FS), (runPipeline o rc fs true).1 = fs) ∧
    (∀ fs : FS, dirPhaseCollisionFree fs (gather_dirs_by_depth fs) = true →
      ∃ fs2 recs2 rlog,
        rename_directories_safe noFail fs false = .ok (fs2, recs2, rlog) ∧
        rename_directories_safe noFail fs true =
          .ok (fs, [], dryDirLog (gather_dirs_by_depth fs)) ∧
        targetPaths rlog = targetPaths (dryDirLog (gather_dirs_by_depth fs))) ∧
    (∀ (rc : RootCtx) (fs : FS) (dirp : List String),
      targetPaths ((processDir noFail true rc fs [] dirp []).2.2) =
        targetPaths ((processDir noFail false rc fs [] dirp []).2.2)) := by
  refine ⟨runPipeline_dry_fst, ?_, ?_⟩
  · intro fs hcf
    rcases renameDirsGo_cf (gather_dirs_by_depth fs) fs [] [] hcf
      with ⟨fs2, recs2, rlog, heq, htp⟩
    rw [List.nil_append] at heq
    have hdry : rename_directories_safe noFail fs true =
        .ok (fs, [], [] ++ dryDirLog (gather_dirs_by_depth fs)) :=
      renameDirsGo_dry noFail (gather_dirs_by_depth fs) fs [] []
    rw [List.nil_append] at hdry
    exact ⟨fs2, recs2, rlog, heq, hdry,
      by rw [htp, targetPaths_dryDirLog]⟩
  · intro rc fs dirp
    rw [processDir_dry_targets, processDir_noFail_targets]

/-- Witness for C4 at the collision-free fixture `fsC2`: the dry run
leaves the tree alone, both modes compute the same directory targets,
and directory `A A` gets the same file targets in both modes. -/
theorem dry_real_target_paths_witness :
    (runPipeline noFail rcW fsC2 true).1 = fsC2 ∧
    (∃ fs2 recs2 rlog,
      rename_directories_safe noFail fsC2 false = .ok (fs2, recs2, rlog) ∧
      rename_directories_safe noFail fsC2 true =
        .ok (fsC2, [], dryDirLog (gather_dirs_by_depth fsC2)) ∧
      targetPaths rlog = targetPaths (dryDirLog (gather_dirs_by_depth fsC2))) ∧
    targetPaths ((processDir noFail true rcW fsC2 [] ["A A"] []).2.2) =
      targetPaths ((processDir noFail false rcW fsC2 [] ["A A"] []).2.2) :=
  ⟨dry_real_target_paths.1 noFail rcW fsC2,
    dry_real_target_paths.2.1 fsC2 (by decide),
    dry_real_target_paths.2.2 rcW fsC2 ["A A"]⟩

end ACR
